import Mathlib

/-!
# Scene-graph node traversal (`apps/common/sg/common/Node.cpp`)

A shallow embedding of the traversal engine of the OSPRay scene graph:
`Node::traverse`, `Node::preTraverse`, `Node::postTraverse`,
`Renderable::preTraverse`, `Renderable::postTraverse` and the free function
`valid`.

Conventions of the embedding.

* A `TimeStamp` is a natural number; only comparisons are used by the code.
* A node is a record of its own fields together with the list of its
  `(key, child)` pairs in iteration order.  The scene graph is taken to be a
  tree (no sharing between children).
* `TimeStamp::now()` is an external clock.  It is an oracle `now : Nat → Nat`
  giving the value of the `k`-th reading; the world counts the readings.
* Calls of the virtual hooks and writes to `std::cout` are recorded in a trace
  of events.  Every event carries the path (child indices from the root of the
  traversal) of the node on which it happened.  The trace is ghost state: no
  branch of the code depends on it.
-/

namespace ospray.sg

/-! ## Data model -/

/-- Modelled from the spec: the tagged union `SGVar` (declared in `sg/common/Node.h`,
which is not part of the sources).  The spec lists the alternatives and says that the
empty alternative is the first one.  Floating-point payloads are kept as bit patterns,
references as handles. -/
inductive SGVar where
  | empty
  | float (bits : Nat)
  | vec2f (x y : Nat)
  | vec3f (x y z : Nat)
  | vec4f (x y z w : Nat)
  | int32 (v : Int)
  | vec2i (x y : Int)
  | vec3i (x y z : Int)
  | vec4i (x y z w : Int)
  | string (s : String)
  | data (handle : Nat)
  | object (handle : Nat)
  | texture (handle : Nat)
deriving DecidableEq, Repr

/-- Index of the active alternative, `SGVar::which()`. -/
def SGVar.which : SGVar → Nat
  | .empty => 0
  | .float _ => 1
  | .vec2f _ _ => 2
  | .vec3f _ _ _ => 3
  | .vec4f _ _ _ _ => 4
  | .int32 _ => 5
  | .vec2i _ _ => 6
  | .vec3i _ _ _ => 7
  | .vec4i _ _ _ _ => 8
  | .string _ => 9
  | .data _ => 10
  | .object _ => 11
  | .texture _ => 12

/-- Source: `bool valid(SGVar var) { return var.which() > 0; }`. -/
def valid (var : SGVar) : Bool := decide (var.which > 0)

/-- Which class supplies the virtual `preTraverse`/`postTraverse` of a node. -/
inductive Kind where
  | node
  | renderable
deriving DecidableEq, Repr

/-- The fields of a `Node` other than its children.  `flags` is the bit pattern of the
`int` flag word.  `valueType` is modelled from the spec: for a strongly-typed node variant
(the `NodeParam<T>` classes of `sg/common/Node.h`, which is not part of the sources) it is
the index of the one alternative the node accepts as its value; it is `none` for a class
that takes any value. -/
structure NodeData where
  name : String
  type : String
  kind : Kind
  flags : Nat
  value : SGVar
  lastModified : Nat
  lastCommitted : Nat
  valid : Bool
  valueType : Option Nat
deriving DecidableEq, Repr

/-- A scene-graph node: its fields and its children in iteration order. -/
inductive Node where
  | mk (data : NodeData) (children : List (String × Node))

/-- The fields of a node. -/
def Node.data : Node → NodeData
  | .mk d _ => d

/-- The `children` container of a node. -/
def Node.children : Node → List (String × Node)
  | .mk _ cs => cs

/-- Accessor `getLastModified()`. -/
def Node.getLastModified (n : Node) : Nat := n.data.lastModified

/-- Accessor `getLastCommitted()`. -/
def Node.getLastCommitted (n : Node) : Nat := n.data.lastCommitted

/-- Accessor `isValid()`: the stored flag. -/
def Node.isValid (n : Node) : Bool := n.data.valid

/-- Accessor `getFlags()`. -/
def Node.getFlags (n : Node) : Nat := n.data.flags

/-- Modelled from the spec: `Node::getChildrenLastModified()` (declared in
`sg/common/Node.h`, which is not part of the sources).  The spec calls it the aggregate
("latest") of all children's last-modified timestamps. -/
def Node.getChildrenLastModified (n : Node) : Nat :=
  (n.children.map (fun c => c.2.getLastModified)).foldl max 0

/-- What an event records. -/
inductive Action where
  | preTraverse (operation : String)
  | postTraverse (operation : String)
  | preCommit
  | postCommit
  | preRender
  | postRender
  | cout (text : String)
deriving DecidableEq, Repr

/-- One recorded hook call or output write, with the path of the node it happened on. -/
structure Event where
  path : List Nat
  action : Action
deriving DecidableEq, Repr

/-- The traversal context `RenderContext`. -/
structure RenderContext where
  level : Int
  childMTime : Nat
deriving DecidableEq, Repr

/-- Everything a traversal threads through: the context, the number of clock readings
taken so far, and the trace. -/
structure World where
  ctx : RenderContext
  clock : Nat
  trace : List Event
deriving DecidableEq, Repr

/-- What the code takes from outside `Node.cpp`: the bit `NodeFlags::required`, the
virtual self-check `computeValid()` and the clock `TimeStamp::now()`. -/
structure Env where
  required : Nat
  computeValid : Node → Bool
  now : Nat → Nat

/-- Append events to the trace. -/
def World.emit (w : World) (es : List Event) : World :=
  { w with trace := w.trace ++ es }

/-- The events recorded between an earlier world and a later one. -/
def World.since (w0 w : World) : List Event :=
  w.trace.drop w0.trace.length

/-! ## The hooks -/

/-- Source: `Node::preTraverse`.  Returns the fields of the node after the hook. -/
def Node.preTraverse (env : Env) (path : List Nat) (operation : String)
    (n : Node) (w : World) : NodeData × World :=
  if operation = "print" then
    (n.data, w.emit (List.replicate w.ctx.level.toNat ⟨path, .cout "  "⟩ ++
      [⟨path, .cout n.data.name⟩, ⟨path, .cout " : "⟩,
       ⟨path, .cout n.data.type⟩, ⟨path, .cout "\n"⟩]))
  else if operation = "commit" ∧
      (n.getLastModified ≥ n.getLastCommitted ∨
       n.getChildrenLastModified ≥ n.getLastCommitted) then
    (n.data, w.emit [⟨path, .preCommit⟩])
  else if operation = "verify" then
    ({ n.data with valid := env.computeValid n }, w)
  else
    (n.data, w)

/-- The loop of the "verify" branch of `Node::postTraverse`:
`if (child.second->getFlags() & NodeFlags::required) valid &= child.second->isValid();`. -/
def verifyChildren (env : Env) (v : Bool) (cs : List (String × Node)) : Bool :=
  cs.foldl (fun acc child =>
    if child.2.getFlags &&& env.required ≠ 0 then acc && child.2.isValid else acc) v

/-- Source: `Node::postTraverse`.  Returns the fields of the node after the hook. -/
def Node.postTraverse (env : Env) (path : List Nat) (operation : String)
    (n : Node) (w : World) : NodeData × World :=
  if operation = "commit" ∧
      (n.getLastModified ≥ n.getLastCommitted ∨
       n.getChildrenLastModified ≥ n.getLastCommitted) then
    ({ n.data with lastCommitted := env.now w.clock },
     { w with trace := w.trace ++ [⟨path, .postCommit⟩], clock := w.clock + 1 })
  else if operation = "verify" then
    ({ n.data with valid := verifyChildren env n.isValid n.children }, w)
  else
    (n.data, w)

/-- Source: `Renderable::preTraverse`. -/
def Renderable.preTraverse (env : Env) (path : List Nat) (operation : String)
    (n : Node) (w : World) : NodeData × World :=
  let r := Node.preTraverse env path operation n w
  if operation = "render" then (r.1, r.2.emit [⟨path, .preRender⟩]) else r

/-- Source: `Renderable::postTraverse`. -/
def Renderable.postTraverse (env : Env) (path : List Nat) (operation : String)
    (n : Node) (w : World) : NodeData × World :=
  let r := Node.postTraverse env path operation n w
  if operation = "render" then (r.1, r.2.emit [⟨path, .postRender⟩]) else r

/-- Virtual call of `preTraverse`. -/
def callPreTraverse (env : Env) (path : List Nat) (operation : String)
    (n : Node) (w : World) : NodeData × World :=
  match n.data.kind with
  | .node => Node.preTraverse env path operation n w
  | .renderable => Renderable.preTraverse env path operation n w

/-- Virtual call of `postTraverse`. -/
def callPostTraverse (env : Env) (path : List Nat) (operation : String)
    (n : Node) (w : World) : NodeData × World :=
  match n.data.kind with
  | .node => Node.postTraverse env path operation n w
  | .renderable => Renderable.postTraverse env path operation n w

/-! ## The traversal -/

/-- Lines 79-81 of `Node::traverse`: `ctx.childMTime = 1`, then the pre-order hook. -/
def enter (env : Env) (path : List Nat) (operation : String)
    (n : Node) (w : World) : NodeData × World :=
  callPreTraverse env path operation n
    ({ w with ctx := { w.ctx with childMTime := 1 } }.emit [⟨path, .preTraverse operation⟩])

/-- `ctx.level++`. -/
def World.levelUp (w : World) : World :=
  { w with ctx := { w.ctx with level := w.ctx.level + 1 } }

/-- `ctx.level--`. -/
def World.levelDown (w : World) : World :=
  { w with ctx := { w.ctx with level := w.ctx.level - 1 } }

/-- `ctx.childMTime = t`. -/
def World.setChildMTime (w : World) (t : Nat) : World :=
  { w with ctx := { w.ctx with childMTime := t } }

mutual
/-- Source: `Node::traverse`. -/
def Node.traverse (env : Env) (operation : String) :
    List Nat → Node → World → Node × World
  | path, .mk d cs, w =>
    let r1 := enter env path operation (.mk d cs) w
    let r2 := traverseChildren env operation path r1.1 0 cs r1.2.levelUp
    let w3 := r2.2.levelDown.setChildMTime (Node.mk r1.1 r2.1).getChildrenLastModified
    let r4 := callPostTraverse env path operation (.mk r1.1 r2.1)
      (w3.emit [⟨path, .postTraverse operation⟩])
    (.mk r4.1 r2.1, r4.2)
/-- The loop `for (auto child : children) if (isValid()) child.second->traverse(...)`;
`parent` holds the fields of the node whose children are walked and `i` is the index of
the next child. -/
def traverseChildren (env : Env) (operation : String) (path : List Nat)
    (parent : NodeData) : Nat → List (String × Node) → World →
    List (String × Node) × World
  | _, [], w => ([], w)
  | i, (key, child) :: rest, w =>
    let r := if parent.valid then child.traverse env operation (path ++ [i]) w
             else (child, w)
    let r2 := traverseChildren env operation path parent (i + 1) rest r.2
    ((key, r.1) :: r2.1, r2.2)
end

/-- The node and the world at the point of `Node::traverse` where all children have been
walked and `ctx.childMTime` has been recomputed, just before `postTraverse` is called. -/
def beforePost (env : Env) (operation : String) (path : List Nat)
    (n : Node) (w : World) : Node × World :=
  let r1 := enter env path operation n w
  let r2 := traverseChildren env operation path r1.1 0 n.children r1.2.levelUp
  (.mk r1.1 r2.1,
   r2.2.levelDown.setChildMTime (Node.mk r1.1 r2.1).getChildrenLastModified)

mutual
/-- All nodes of a tree, in pre-order. -/
def Node.subnodes : Node → List Node
  | .mk d cs => .mk d cs :: subnodesOf cs
/-- All nodes below a list of children, in pre-order. -/
def subnodesOf : List (String × Node) → List Node
  | [] => []
  | (_, c) :: rest => c.subnodes ++ subnodesOf rest
end

mutual
/-- The nodes a traversal reaches: a node itself, and the reachable nodes of its
children when its stored `valid` flag is set. -/
def Node.reachable : Node → List Node
  | .mk d cs => .mk d cs :: (if d.valid then reachableOf cs else [])
/-- The reachable nodes below a list of children. -/
def reachableOf : List (String × Node) → List Node
  | [] => []
  | (_, c) :: rest => c.reachable ++ reachableOf rest
end

/-! ## Global maps, the named-node directory and the node factory -/

/-- A `std::map<std::string, T>`: at most one entry per key is ever looked at. -/
abbrev StdMap (α : Type) := List (String × α)

/-- The value stored under a key, `map.find(key)`; `none` stands for `map.end()`. -/
def StdMap.find {α : Type} (m : StdMap α) (key : String) : Option α :=
  List.lookup key m

/-- The assignment `map[key] = value`: the entry of the key is created or replaced. -/
def StdMap.assign {α : Type} (m : StdMap α) (key : String) (value : α) : StdMap α :=
  (key, value) :: m.filter (fun e => e.1 != key)

/-- The read `map[key]`: `operator[]` creates an entry holding `dflt` when there is none. -/
def StdMap.index {α : Type} (m : StdMap α) (dflt : α) (key : String) : α × StdMap α :=
  match m.find key with
  | some v => (v, m)
  | none => (dflt, (key, dflt) :: m)

/-- Source: `findNamedNode`.  Node pointers are addresses, `0` being `NULL`; the second
component is the directory `namedNodes` after the call. -/
def findNamedNode (namedNodes : StdMap Nat) (name : String) : Nat × StdMap Nat :=
  if namedNodes.find name ≠ none then
    namedNodes.index 0 name
  else
    (0, namedNodes)

/-- Source: `registerNamedNode`. -/
def registerNamedNode (namedNodes : StdMap Nat) (name : String) (node : Nat) : StdMap Nat :=
  namedNodes.assign name node

/-- Modelled from the spec: `Node::setName` (declared in `sg/common/Node.h`, which is not
part of the sources). -/
def Node.setName (n : Node) (name : String) : Node :=
  .mk { n.data with name := name } n.children

/-- Modelled from the spec: `Node::setType` (declared in `sg/common/Node.h`, which is not
part of the sources). -/
def Node.setType (n : Node) (type : String) : Node :=
  .mk { n.data with type := type } n.children

/-- The bit pattern of a 32-bit `int` (two's complement). -/
def flagBits (flags : Int) : Nat :=
  (flags % 2 ^ 32).toNat

/-- The 32-bit `int` with a given bit pattern. -/
def flagWord (bits : Nat) : Int :=
  if bits < 2 ^ 31 then (bits : Int) else (bits : Int) - 2 ^ 32

/-- Modelled from the spec: `Node::setFlags` (declared in `sg/common/Node.h`, which is not
part of the sources).  The argument is the `int` flag word. -/
def Node.setFlags (n : Node) (flags : Int) : Node :=
  .mk { n.data with flags := flagBits flags } n.children

/-- How `createNode` can fail: the `std::runtime_error` it throws, one of its two
assertions, or the `TypeMismatch` raised by the `setValue` it calls. -/
inductive CreateError where
  | unknownNodeType (what : String)
  | assertionFailed
  | typeMismatch
deriving DecidableEq, Repr

/-- Whether the node takes a value: a strongly-typed variant takes the values of its one
alternative only, any other node takes every value. -/
def Node.accepts (n : Node) (var : SGVar) : Bool :=
  match n.data.valueType with
  | none => true
  | some tag => var.which == tag

/-- Modelled from the spec: `Node::setValue` (declared in `sg/common/Node.h`, which is not
part of the sources).  The spec says it stores the value and updates
`lastModified = now()`, and that with a mismatched type for a strongly-typed node variant
it fails with `TypeMismatch` and leaves the node as it is (no partial value or timestamp
update).  The argument `t` is the reading of the clock. -/
def Node.setValue (n : Node) (var : SGVar) (t : Nat) : Except CreateError Node :=
  if n.accepts var then
    .ok (.mk { n.data with value := var, lastModified := t } n.children)
  else
    .error .typeMismatch

/-- The node `createNode` has set up before it looks at the initial value: the
constructed node with name, type and flags set. -/
def Node.setUp (newNode : Node) (name type : String) (flags : Int) : Node :=
  ((newNode.setName name).setType type).setFlags flags

/-- The external collaborators of `createNode`: the symbol resolver `getSymbol` (the
address of the symbol, `0` when it is not found) and the call of a creator function (the
node it constructs, `none` when it returns `NULL`). -/
structure Loader where
  getSymbol : String → Nat
  construct : Nat → Option Node

/-- The process-wide state `createNode` works on: the map `nodeRegistry`, the number of
clock readings taken, the text written to `std::cout`, and two ghost logs: the names
passed to the resolver and the creator functions called. -/
structure Process where
  nodeRegistry : StdMap Nat
  clock : Nat
  cout : List String
  symbolLookups : List String
  creatorCalls : List Nat

/-- A handle `Node::NodeH`: the node it refers to and the identity of that object, which
is the number of the creator call that allocated it. -/
structure NodeH where
  object : Nat
  node : Node

/-- Lines 196-204 of `createNode`: the creator is called and the new node is set up.  An
exception raised by `setValue` leaves `createNode` before it returns. -/
def instantiate (env : Env) (ld : Loader) (creator : Nat) (name type : String)
    (var : SGVar) (flags : Int) (p : Process) : Except CreateError NodeH × Process :=
  if creator = 0 then
    (.error .assertionFailed, p)
  else
    let p1 := { p with creatorCalls := p.creatorCalls ++ [creator] }
    match ld.construct creator with
    | none => (.error .assertionFailed, p1)
    | some newNode =>
      let n := newNode.setUp name type flags
      if valid var then
        match n.setValue var (env.now p1.clock) with
        | .ok m => (.ok ⟨p.creatorCalls.length, m⟩, { p1 with clock := p1.clock + 1 })
        | .error e => (.error e, p1)
      else
        (.ok ⟨p.creatorCalls.length, n⟩, p1)

/-- Source: `createNode`. -/
def createNode (env : Env) (ld : Loader) (name type : String) (var : SGVar) (flags : Int)
    (p : Process) : Except CreateError NodeH × Process :=
  match p.nodeRegistry.find type with
  | none =>
    let creatorName := "ospray_create_sg_node__" ++ type
    let creator := ld.getSymbol creatorName
    let p1 := { p with symbolLookups := p.symbolLookups ++ [creatorName] }
    if creator = 0 then
      (.error (.unknownNodeType ("unknown ospray scene graph node '" ++ type ++ "'")), p1)
    else
      instantiate env ld creator name type var flags
        { p1 with
          cout := p1.cout ++ ["#osp:sg: creating at least one instance of node type '",
                              type, "'", "\n"],
          nodeRegistry := p1.nodeRegistry.assign type creator }
  | some creator => instantiate env ld creator name type var flags p


/-! ## Auxiliary notions used in the statements -/

/-- A later world extends an earlier one below `path`: the clock has not gone back and
the trace has grown by events of nodes at or below `path`. -/
def Extends (path : List Nat) (w w' : World) : Prop :=
  w.clock ≤ w'.clock ∧ ∃ evs, w'.trace = w.trace ++ evs ∧ ∀ e ∈ evs, path <+: e.path

/-- The dirty test of the two "commit" branches. -/
def Node.dirty (n : Node) : Prop :=
  n.getLastModified ≥ n.getLastCommitted ∨ n.getChildrenLastModified ≥ n.getLastCommitted

instance (n : Node) : Decidable n.dirty := by
  unfold Node.dirty; exact inferInstance

/-- The fields no traversal writes. -/
def NodeData.frame (d : NodeData) : NodeData :=
  { d with valid := false, lastCommitted := 0 }

/-- The events that only mark the call of `preTraverse` or `postTraverse`. -/
def Action.isMarker : Action → Bool
  | .preTraverse _ => true
  | .postTraverse _ => true
  | _ => false

/-- The events that record a call of `preCommit` or `postCommit`. -/
def Action.isCommitHook : Action → Bool
  | .preCommit => true
  | .postCommit => true
  | _ => false

mutual
/-- A tree on which a "commit" traversal has nothing to do: the node is not dirty and,
when its stored `valid` flag lets the traversal descend, neither is any reached node
below it. -/
def Node.settled : Node → Prop
  | .mk d cs => ¬ (Node.mk d cs).dirty ∧ (d.valid = true → settledAll cs)
/-- All children are settled. -/
def settledAll : List (String × Node) → Prop
  | [] => True
  | (_, c) :: rest => c.settled ∧ settledAll rest
end

/-- What a strictly increasing clock provides: every reading still to come is later than
every `lastModified` stored in the tree. -/
def ClockAhead (env : Env) (w : World) (n : Node) : Prop :=
  ∀ k, w.clock ≤ k → ∀ m ∈ n.subnodes, m.getLastModified < env.now k

/-- A monotonic clock: no reading still to come is smaller than a timestamp stored in the
tree. -/
def ClockNotBehind (env : Env) (w : World) (n : Node) : Prop :=
  ∀ k, w.clock ≤ k → ∀ m ∈ n.subnodes,
    m.getLastModified ≤ env.now k ∧ m.getLastCommitted ≤ env.now k

/-- The commit of a node is up to date: `lastCommitted` is not before `lastModified` nor
before the children timestamp. -/
def Node.upToDate (n : Node) : Prop :=
  n.getLastCommitted ≥ n.getLastModified ∧ n.getLastCommitted ≥ n.getChildrenLastModified

instance (n : Node) : Decidable n.upToDate := by
  unfold Node.upToDate; exact inferInstance

/-- How a traversal under `op` may move `lastCommitted` from one node to its image: never
back, and not at all unless `op` is "commit". -/
def CommitStep (op : String) (a b : Node) : Prop :=
  a.getLastCommitted ≤ b.getLastCommitted ∧
  (op ≠ "commit" → b.getLastCommitted = a.getLastCommitted)


/-- The strings written to `std::cout`, in order, among a list of events. -/
def couts (es : List Event) : List String :=
  es.filterMap (fun e => match e.action with
    | .cout s => some s
    | _ => none)

/-- The characters a sequence of writes puts on the stream. -/
def text (writes : List String) : List Char :=
  (writes.map String.data).flatten

/-- The writes that make up the line of a node printed at a nesting level: the
indentation unit once per level, then name, separator, type and line end. -/
def nodeWrites (level : Nat) (n : Node) : List String :=
  List.replicate level "  " ++ [n.data.name, " : ", n.data.type, "\n"]

mutual
/-- The nodes a traversal visits, in pre-order, each with its depth; the node itself has
depth `d`. -/
def Node.visitedAt : Nat → Node → List (Nat × Node)
  | d, .mk nd cs => (d, .mk nd cs) :: (if nd.valid then visitedAtOf (d + 1) cs else [])
/-- The visited nodes below a list of children that are at depth `d`. -/
def visitedAtOf : Nat → List (String × Node) → List (Nat × Node)
  | _, [] => []
  | d, (_, c) :: rest => c.visitedAt d ++ visitedAtOf d rest
end

/-- The fields of a node with the `valid` flag blanked. -/
def NodeData.withoutValid (d : NodeData) : NodeData :=
  { d with valid := false }

mutual
/-- The tree with every `valid` flag blanked: the state a "verify" pass does not write. -/
def Node.eraseValid : Node → Node
  | .mk d cs => .mk d.withoutValid (eraseValidAll cs)
/-- The children with every `valid` flag blanked. -/
def eraseValidAll : List (String × Node) → List (String × Node)
  | [] => []
  | (key, c) :: rest => (key, c.eraseValid) :: eraseValidAll rest
end

/-- The walk the spec describes for a valid node: `traverse` is called on each child in
turn, with the same operation and on the context the previous child left. -/
def traverseAll (env : Env) (operation : String) (path : List Nat) :
    Nat → List (String × Node) → World → List (String × Node) × World
  | _, [], w => ([], w)
  | i, (key, child) :: rest, w =>
    ((key, (child.traverse env operation (path ++ [i]) w).1) ::
        (traverseAll env operation path (i + 1) rest
          (child.traverse env operation (path ++ [i]) w).2).1,
     (traverseAll env operation path (i + 1) rest
          (child.traverse env operation (path ++ [i]) w).2).2)

/-! ## Concrete scenes used as test inputs -/

/-- A childless node of the base class with an empty value. -/
def leaf (name : String) (flags lastModified lastCommitted : Nat) (valid : Bool) : Node :=
  .mk ⟨name, "Node", .node, flags, .empty, lastModified, lastCommitted, valid, none⟩ []

/-- A node of the base class with an empty value and the given children. -/
def group (name : String) (lastModified lastCommitted : Nat) (valid : Bool)
    (children : List (String × Node)) : Node :=
  .mk ⟨name, "Node", .node, 0, .empty, lastModified, lastCommitted, valid, none⟩ children

/-- The world at the start of a top-level traversal: level 0, no clock reading taken,
empty trace. -/
def World.initial : World := ⟨⟨0, 0⟩, 0, []⟩

/-- An environment whose `required` bit is bit 0, whose self-check always passes and
whose clock reads 100, 101, 102, ... -/
def passingEnv : Env := ⟨1, fun _ => true, fun k => 100 + k⟩

/-- An environment whose `required` bit is bit 0, whose self-check rejects exactly the
nodes holding the integer value 0, and whose clock reads 100, 101, 102, ... -/
def rangeEnv : Env := ⟨1, fun n => n.data.value != .int32 0, fun k => 100 + k⟩

/-- A strongly-typed `int` node (it accepts values of the alternative `int32`, index 5,
only) holding an integer value. -/
def intNode (name : String) (flags : Nat) (v : Int) (lastModified lastCommitted : Nat)
    (valid : Bool) (children : List (String × Node)) : Node :=
  .mk ⟨name, "int", .node, flags, .int32 v, lastModified, lastCommitted, valid, some 5⟩ children

/-- A parent that passed an earlier "verify" (stored `valid` flag set) and whose value was
then set to 0 at time 30, with one modified child: the self-check now rejects it. -/
def editedParent : Node :=
  intNode "parent" 0 0 30 10 true [("a", leaf "a" 0 20 0 true)]

/-- A parent with a required child `a` and a child `b` that is not required, both holding
the rejected value 0. -/
def sceneBothInvalid : Node :=
  group "parent" 5 0 true
    [("a", intNode "a" 1 0 1 0 true []), ("b", intNode "b" 0 0 1 0 true [])]

/-- A parent with a required child `a` holding an accepted value and a child `b` that is
not required and holds the rejected value 0. -/
def sceneOptionalInvalid : Node :=
  group "parent" 5 0 true
    [("a", intNode "a" 1 7 1 0 true []), ("b", intNode "b" 0 0 1 0 true [])]

/-- A parent whose stored `valid` flag is still set, with one modified child. -/
def staleParent : Node :=
  group "parent" 5 10 true [("a", leaf "a" 0 20 0 true)]

/-- A parent that has never been verified (stored `valid` flag false) with one modified,
never committed child. -/
def unverifiedParent : Node :=
  group "parent" 5 0 false [("a", leaf "a" 0 20 0 true)]

/-- The node the creator of the strongly-typed `float` variant yields: childless,
unnamed, empty, accepting values of the alternative `float` (index 1) only. -/
def newFloatNode : Node :=
  .mk ⟨"NULL", "Node", .node, 0, .empty, 3, 0, false, some 1⟩ []

/-- A loader that knows the one symbol `ospray_create_sg_node__float`, at address 4096,
whose creator yields `newFloatNode`. -/
def floatLoader : Loader :=
  ⟨fun symbol => if symbol = "ospray_create_sg_node__float" then 4096 else 0,
   fun creator => if creator = 4096 then some newFloatNode else none⟩

/-- The process at start-up: empty registry, no clock reading, nothing written. -/
def Process.initial : Process := ⟨[], 0, [], [], []⟩
/-! ## General facts about the hooks -/

theorem Extends.refl (path : List Nat) (w : World) : Extends path w w :=
  ⟨le_rfl, [], by simp, by simp⟩

theorem Extends.trans {path : List Nat} {a b c : World}
    (h1 : Extends path a b) (h2 : Extends path b c) : Extends path a c := by
  obtain ⟨hc1, e1, ht1, hp1⟩ := h1
  obtain ⟨hc2, e2, ht2, hp2⟩ := h2
  refine ⟨le_trans hc1 hc2, e1 ++ e2, by rw [ht2, ht1, List.append_assoc], ?_⟩
  intro e he
  rcases List.mem_append.1 he with h | h
  · exact hp1 e h
  · exact hp2 e h

theorem Extends.weaken {p q : List Nat} {a b : World}
    (hpq : p <+: q) (h : Extends q a b) : Extends p a b := by
  obtain ⟨hc, e, ht, hp⟩ := h
  exact ⟨hc, e, ht, fun x hx => List.IsPrefix.trans hpq (hp x hx)⟩

theorem since_of_trace {w w' : World} {evs : List Event}
    (h : w'.trace = w.trace ++ evs) : w.since w' = evs := by
  simp [World.since, h]

/-- The pre-order hook changes at most the `valid` field, and only under "verify". -/
theorem callPreTraverse_data (env : Env) (path : List Nat) (op : String)
    (n : Node) (w : World) :
    (callPreTraverse env path op n w).1 =
      { n.data with valid := if op = "verify" then env.computeValid n else n.data.valid } := by
  unfold callPreTraverse Renderable.preTraverse Node.preTraverse
  by_cases h1 : op = "print"
  · subst h1; cases n.data.kind <;> simp
  · by_cases h2 : op = "verify"
    · subst h2; cases n.data.kind <;> simp
    · cases n.data.kind <;> simp only [h1, h2, if_false] <;> split <;> simp <;> split <;> rfl

/-- The pre-order hook leaves the context and the clock alone and only records events
of its own node; `preCommit` is among them exactly in a dirty "commit". -/
theorem callPreTraverse_world (env : Env) (path : List Nat) (op : String)
    (n : Node) (w : World) :
    (callPreTraverse env path op n w).2.ctx = w.ctx ∧
    (callPreTraverse env path op n w).2.clock = w.clock ∧
    ∃ evs, (callPreTraverse env path op n w).2.trace = w.trace ++ evs ∧
      (∀ e ∈ evs, e.path = path ∧ e.action.isMarker = false ∧ e.action ≠ .postCommit) ∧
      (⟨path, .preCommit⟩ ∈ evs ↔ op = "commit" ∧ n.dirty) := by
  unfold callPreTraverse Renderable.preTraverse Node.preTraverse Node.dirty World.emit
  by_cases h1 : op = "commit"
  · subst h1
    by_cases hd : n.getLastModified ≥ n.getLastCommitted ∨
        n.getChildrenLastModified ≥ n.getLastCommitted
    · cases n.data.kind <;> simp [hd, Action.isMarker]
    · cases n.data.kind <;> simp [hd, Action.isMarker]
  · by_cases h2 : op = "verify"
    · subst h2; cases n.data.kind <;> simp [Action.isMarker]
    · by_cases h3 : op = "render"
      · subst h3; cases n.data.kind <;> simp [Action.isMarker]
      · by_cases h4 : op = "print"
        · subst h4
          cases n.data.kind <;> simp <;>
            intro e he <;>
            rcases he with ⟨_, rfl⟩ | rfl | rfl | rfl | rfl <;> simp [Action.isMarker]
        · cases n.data.kind <;> simp [h1, h2, h3, h4, Action.isMarker]

/-- The post-order hook changes `lastCommitted` only in a dirty "commit" and `valid`
only under "verify". -/
theorem callPostTraverse_data (env : Env) (path : List Nat) (op : String)
    (n : Node) (w : World) :
    (callPostTraverse env path op n w).1 =
      { n.data with
        lastCommitted := if op = "commit" ∧ n.dirty then env.now w.clock
                         else n.data.lastCommitted,
        valid := if op = "verify" then verifyChildren env n.isValid n.children
                 else n.data.valid } := by
  unfold callPostTraverse Renderable.postTraverse Node.postTraverse Node.dirty
  by_cases h1 : op = "commit"
  · subst h1
    by_cases hd : n.getLastModified ≥ n.getLastCommitted ∨
        n.getChildrenLastModified ≥ n.getLastCommitted
    · cases n.data.kind <;> simp [hd, Action.isMarker]
    · cases n.data.kind <;> simp [hd, Action.isMarker]
  · by_cases h2 : op = "verify"
    · subst h2; cases n.data.kind <;> simp [Action.isMarker]
    · cases n.data.kind
      · simp [h1, h2]
      · simp only [h1, h2, if_false, false_and]
        split <;> rfl

/-- The post-order hook leaves the context alone, reads the clock exactly in a dirty
"commit", and only records events of its own node. -/
theorem callPostTraverse_world (env : Env) (path : List Nat) (op : String)
    (n : Node) (w : World) :
    (callPostTraverse env path op n w).2.ctx = w.ctx ∧
    (callPostTraverse env path op n w).2.clock =
      (if op = "commit" ∧ n.dirty then w.clock + 1 else w.clock) ∧
    ∃ evs, (callPostTraverse env path op n w).2.trace = w.trace ++ evs ∧
      (∀ e ∈ evs, e.path = path ∧ e.action.isMarker = false ∧ e.action ≠ .preCommit) ∧
      (⟨path, .postCommit⟩ ∈ evs ↔ op = "commit" ∧ n.dirty) := by
  unfold callPostTraverse Renderable.postTraverse Node.postTraverse Node.dirty World.emit
  by_cases h1 : op = "commit"
  · subst h1
    by_cases hd : n.getLastModified ≥ n.getLastCommitted ∨
        n.getChildrenLastModified ≥ n.getLastCommitted
    · cases n.data.kind <;> simp [hd, Action.isMarker]
    · cases n.data.kind <;> simp [hd, Action.isMarker]
  · by_cases h2 : op = "verify"
    · subst h2; cases n.data.kind <;> simp [Action.isMarker]
    · by_cases h3 : op = "render"
      · subst h3; cases n.data.kind <;> simp [Action.isMarker]
      · cases n.data.kind <;> simp [h1, h2, h3, Action.isMarker]

/-- What lines 79-81 of `traverse` do to the fields of the node. -/
theorem enter_data (env : Env) (path : List Nat) (op : String) (n : Node) (w : World) :
    (enter env path op n w).1 =
      { n.data with valid := if op = "verify" then env.computeValid n else n.data.valid } := by
  unfold enter; exact callPreTraverse_data _ _ _ _ _

/-- What lines 79-81 of `traverse` do to the world. -/
theorem enter_world (env : Env) (path : List Nat) (op : String) (n : Node) (w : World) :
    (enter env path op n w).2.ctx = { w.ctx with childMTime := 1 } ∧
    (enter env path op n w).2.clock = w.clock ∧
    ∃ evs, (enter env path op n w).2.trace = w.trace ++ ⟨path, .preTraverse op⟩ :: evs ∧
      (∀ e ∈ evs, e.path = path ∧ e.action.isMarker = false ∧ e.action ≠ .postCommit) ∧
      (⟨path, .preCommit⟩ ∈ evs ↔ op = "commit" ∧ n.dirty) := by
  unfold enter
  obtain ⟨h1, h2, evs, h3, h4⟩ := callPreTraverse_world env path op n
    ({ w with ctx := { w.ctx with childMTime := 1 } }.emit [⟨path, .preTraverse op⟩])
  refine ⟨h1, h2, evs, ?_, h4⟩
  rw [h3]; simp [World.emit]

/-- The traversal is the walk up to the recomputation of `ctx.childMTime`, followed by
the post-order hook. -/
theorem traverse_eq (env : Env) (op : String) (path : List Nat) (n : Node) (w : World) :
    n.traverse env op path w =
      (.mk (callPostTraverse env path op (beforePost env op path n w).1
              ((beforePost env op path n w).2.emit [⟨path, .postTraverse op⟩])).1
           (beforePost env op path n w).1.children,
       (callPostTraverse env path op (beforePost env op path n w).1
              ((beforePost env op path n w).2.emit [⟨path, .postTraverse op⟩])).2) := by
  cases n with
  | mk d cs => simp [Node.traverse, beforePost, Node.children]

/-- A traversal writes none of `name`, `type`, `kind`, `flags`, `value`, `lastModified`
at the node it is called on. -/
theorem traverse_frame (env : Env) (op : String) (path : List Nat) (n : Node) (w : World) :
    (n.traverse env op path w).1.data.frame = n.data.frame := by
  rw [traverse_eq]
  simp only [Node.data, callPostTraverse_data, beforePost, enter_data, NodeData.frame]

/-- The loop over the children keeps the keys and writes none of the framed fields of
the children. -/
theorem traverseChildren_frame (env : Env) (op : String) (path : List Nat)
    (parent : NodeData) :
    ∀ (cs : List (String × Node)) (i : Nat) (w : World),
      (traverseChildren env op path parent i cs w).1.map (fun c => (c.1, c.2.data.frame)) =
        cs.map (fun c => (c.1, c.2.data.frame))
  | [], i, w => by simp [traverseChildren]
  | (key, child) :: rest, i, w => by
    simp only [traverseChildren, List.map_cons]
    rw [traverseChildren_frame env op path parent rest]
    split
    · rw [traverse_frame]
    · rfl

theorem getChildrenLastModified_eq_of_frame {d d' : NodeData} {cs cs' : List (String × Node)}
    (h : cs'.map (fun c => (c.1, c.2.data.frame)) = cs.map (fun c => (c.1, c.2.data.frame))) :
    (Node.mk d' cs').getChildrenLastModified = (Node.mk d cs).getChildrenLastModified := by
  have h2 := congrArg (List.map (fun p : String × NodeData => p.2.lastModified)) h
  simp only [List.map_map] at h2
  unfold Node.getChildrenLastModified Node.children
  have e : ∀ l : List (String × Node),
      l.map (fun c => c.2.getLastModified) =
      l.map ((fun p : String × NodeData => p.2.lastModified) ∘ fun c => (c.1, c.2.data.frame)) := by
    intro l; apply List.map_congr_left; intro a _; rfl
  rw [e cs', e cs, h2]

mutual
/-- A traversal only adds events of nodes at or below its own path, never turns the
clock back, and returns with `ctx.level` as it found it. -/
theorem traverse_extends (env : Env) (op : String) :
    ∀ (path : List Nat) (n : Node) (w : World),
      Extends path w (n.traverse env op path w).2 ∧
      (n.traverse env op path w).2.ctx.level = w.ctx.level
  | path, .mk d cs, w => by
    obtain ⟨hc, hk, evs, ht, hp, -, -⟩ := enter_world env path op (.mk d cs) w
    obtain ⟨hx, hl⟩ := traverseChildren_extends env op path (enter env path op (.mk d cs) w).1 0 cs
      (enter env path op (.mk d cs) w).2.levelUp
    set r1 := enter env path op (.mk d cs) w with hr1
    set r2 := traverseChildren env op path r1.1 0 cs r1.2.levelUp with hr2
    obtain ⟨pc, pk, pevs, pt, pp, -, -⟩ := callPostTraverse_world env path op (.mk r1.1 r2.1)
      ((r2.2.levelDown.setChildMTime (Node.mk r1.1 r2.1).getChildrenLastModified).emit
        [⟨path, .postTraverse op⟩])
    have e : (Node.traverse env op path (.mk d cs) w).2 =
        (callPostTraverse env path op (.mk r1.1 r2.1)
          ((r2.2.levelDown.setChildMTime (Node.mk r1.1 r2.1).getChildrenLastModified).emit
            [⟨path, .postTraverse op⟩])).2 := by
      simp [Node.traverse, hr1, hr2]
    rw [e]
    refine ⟨?_, ?_⟩
    · have a1 : Extends path w r1.2.levelUp := by
        refine ⟨by simp [World.levelUp, hk], _, by simpa [World.levelUp] using ht, ?_⟩
        intro x hx
        rcases List.mem_cons.1 hx with h | h
        · subst h; exact List.prefix_refl _
        · rw [(hp x h).1]
      have a2 : Extends path r2.2 (callPostTraverse env path op (.mk r1.1 r2.1)
          ((r2.2.levelDown.setChildMTime (Node.mk r1.1 r2.1).getChildrenLastModified).emit
            [⟨path, .postTraverse op⟩])).2 := by
        refine ⟨?_, ⟨path, .postTraverse op⟩ :: pevs, ?_, ?_⟩
        · rw [pk]; simp only [World.emit, World.levelDown, World.setChildMTime]; split <;> omega
        · rw [pt]; simp [World.emit, World.levelDown, World.setChildMTime]
        · intro x hx
          rcases List.mem_cons.1 hx with h | h
          · subst h; exact List.prefix_refl _
          · rw [(pp x h).1]
      exact (a1.trans hx).trans a2
    · rw [pc]
      simp only [World.emit, World.levelDown, World.setChildMTime]
      rw [hl]; simp [World.levelUp, hc]
/-- The loop over the children only adds events of nodes at or below the parent's path,
never turns the clock back, and leaves `ctx.level` as it found it. -/
theorem traverseChildren_extends (env : Env) (op : String) :
    ∀ (path : List Nat) (parent : NodeData) (i : Nat) (cs : List (String × Node)) (w : World),
      Extends path w (traverseChildren env op path parent i cs w).2 ∧
      (traverseChildren env op path parent i cs w).2.ctx.level = w.ctx.level
  | path, parent, i, [], w => by simp [traverseChildren, Extends.refl]
  | path, parent, i, (key, child) :: rest, w => by
    simp only [traverseChildren]
    split
    · obtain ⟨h1, h2⟩ := traverse_extends env op (path ++ [i]) child w
      obtain ⟨h3, h4⟩ := traverseChildren_extends env op path parent (i + 1) rest
        (child.traverse env op (path ++ [i]) w).2
      exact ⟨(Extends.weaken (List.prefix_append _ _) h1).trans h3, by rw [h4, h2]⟩
    · exact traverseChildren_extends env op path parent (i + 1) rest w
end

/-! ## The trace of a traversal, in segments -/

theorem Extends.trace_eq {p : List Nat} {w w' : World} (h : Extends p w w') :
    w'.trace = w.trace ++ w.since w' := by
  obtain ⟨-, evs, ht, -⟩ := h
  rw [since_of_trace ht, ht]

theorem Extends.since_below {p : List Nat} {w w' : World} (h : Extends p w w') :
    ∀ e ∈ w.since w', p <+: e.path := by
  obtain ⟨-, evs, ht, hp⟩ := h
  rw [since_of_trace ht]; exact hp

theorem since_append {p q : List Nat} {a b c : World}
    (h1 : Extends p a b) (h2 : Extends q b c) : a.since c = a.since b ++ b.since c := by
  apply since_of_trace
  rw [h2.trace_eq, h1.trace_eq, List.append_assoc]

theorem since_self (w : World) : w.since w = [] := by
  simp [World.since]

/-- With an invalid parent the loop over the children does nothing. -/
theorem traverseChildren_invalid (env : Env) (op : String) (path : List Nat)
    (parent : NodeData) (hv : parent.valid = false) :
    ∀ (cs : List (String × Node)) (i : Nat) (w : World),
      traverseChildren env op path parent i cs w = (cs, w)
  | [], i, w => by simp [traverseChildren]
  | (key, child) :: rest, i, w => by
    simp [traverseChildren, hv, traverseChildren_invalid env op path parent hv rest]

theorem enter_extends (env : Env) (path : List Nat) (op : String) (n : Node) (w : World) :
    Extends path w (enter env path op n w).2 := by
  obtain ⟨-, hk, evs, ht, hp, -⟩ := enter_world env path op n w
  refine ⟨by rw [hk], _, ht, ?_⟩
  intro e he
  rcases List.mem_cons.1 he with h | h
  · subst h; exact List.prefix_refl _
  · rw [(hp e h).1]

theorem beforePost_children (env : Env) (op : String) (path : List Nat) (n : Node) (w : World) :
    (beforePost env op path n w).1.children =
      (traverseChildren env op path (enter env path op n w).1 0 n.children
        (enter env path op n w).2.levelUp).1 := rfl

theorem beforePost_data (env : Env) (op : String) (path : List Nat) (n : Node) (w : World) :
    (beforePost env op path n w).1.data = (enter env path op n w).1 := rfl

theorem beforePost_trace (env : Env) (op : String) (path : List Nat) (n : Node) (w : World) :
    (beforePost env op path n w).2.trace =
      (traverseChildren env op path (enter env path op n w).1 0 n.children
        (enter env path op n w).2.levelUp).2.trace := rfl

theorem beforePost_clock (env : Env) (op : String) (path : List Nat) (n : Node) (w : World) :
    (beforePost env op path n w).2.clock =
      (traverseChildren env op path (enter env path op n w).1 0 n.children
        (enter env path op n w).2.levelUp).2.clock := rfl

theorem beforePost_extends (env : Env) (op : String) (path : List Nat) (n : Node) (w : World) :
    Extends path (enter env path op n w).2 (beforePost env op path n w).2 := by
  obtain ⟨⟨hc, evs, ht, hp⟩, -⟩ := traverseChildren_extends env op path
    (enter env path op n w).1 0 n.children (enter env path op n w).2.levelUp
  exact ⟨by rw [beforePost_clock]; exact hc, evs, by rw [beforePost_trace]; exact ht, hp⟩

theorem traverse_world_eq (env : Env) (op : String) (path : List Nat) (n : Node) (w : World) :
    (n.traverse env op path w).2 =
      (callPostTraverse env path op (beforePost env op path n w).1
        ((beforePost env op path n w).2.emit [⟨path, .postTraverse op⟩])).2 := by
  rw [traverse_eq]

/-- The events of the post-order part of a traversal: the marker of the call, then the
events of the hook, among which `postCommit` appears exactly in a dirty "commit". -/
theorem post_since (env : Env) (op : String) (path : List Nat) (n : Node) (w : World) :
    (beforePost env op path n w).2.clock ≤ (n.traverse env op path w).2.clock ∧
    ∃ evs, (n.traverse env op path w).2.trace =
        (beforePost env op path n w).2.trace ++ ⟨path, .postTraverse op⟩ :: evs ∧
      (∀ e ∈ evs, e.path = path ∧ e.action.isMarker = false ∧ e.action ≠ .preCommit) ∧
      (⟨path, .postCommit⟩ ∈ evs ↔ op = "commit" ∧ (beforePost env op path n w).1.dirty) := by
  obtain ⟨-, hk, evs, ht, hp⟩ := callPostTraverse_world env path op (beforePost env op path n w).1
    ((beforePost env op path n w).2.emit [⟨path, .postTraverse op⟩])
  rw [traverse_world_eq]
  refine ⟨?_, evs, ?_, hp⟩
  · rw [hk]; simp only [World.emit]; split <;> omega
  · rw [ht]; simp [World.emit]

theorem post_extends (env : Env) (op : String) (path : List Nat) (n : Node) (w : World) :
    Extends path (beforePost env op path n w).2 (n.traverse env op path w).2 := by
  obtain ⟨hc, evs, ht, hp, -⟩ := post_since env op path n w
  refine ⟨hc, _, ht, ?_⟩
  intro e he
  rcases List.mem_cons.1 he with h | h
  · subst h; exact List.prefix_refl _
  · rw [(hp e h).1]

/-- The events of a traversal are those of the pre-order part, then those of the
children, then those of the post-order part. -/
theorem traverse_since (env : Env) (op : String) (path : List Nat) (n : Node) (w : World) :
    w.since (n.traverse env op path w).2 =
      w.since (enter env path op n w).2 ++
      (enter env path op n w).2.since (beforePost env op path n w).2 ++
      (beforePost env op path n w).2.since (n.traverse env op path w).2 := by
  rw [since_append ((enter_extends env path op n w).trans (beforePost_extends env op path n w))
        (post_extends env op path n w),
      since_append (enter_extends env path op n w) (beforePost_extends env op path n w)]

theorem enter_since (env : Env) (path : List Nat) (op : String) (n : Node) (w : World) :
    ∃ evs, w.since (enter env path op n w).2 = ⟨path, .preTraverse op⟩ :: evs ∧
      (∀ e ∈ evs, e.path = path ∧ e.action.isMarker = false ∧ e.action ≠ .postCommit) ∧
      (⟨path, .preCommit⟩ ∈ evs ↔ op = "commit" ∧ n.dirty) := by
  obtain ⟨-, -, evs, ht, hp⟩ := enter_world env path op n w
  exact ⟨evs, since_of_trace ht, hp⟩

theorem post_since_eq (env : Env) (op : String) (path : List Nat) (n : Node) (w : World) :
    ∃ evs, (beforePost env op path n w).2.since (n.traverse env op path w).2 =
        ⟨path, .postTraverse op⟩ :: evs ∧
      (∀ e ∈ evs, e.path = path ∧ e.action.isMarker = false ∧ e.action ≠ .preCommit) ∧
      (⟨path, .postCommit⟩ ∈ evs ↔ op = "commit" ∧ (beforePost env op path n w).1.dirty) := by
  obtain ⟨-, evs, ht, hp⟩ := post_since env op path n w
  exact ⟨evs, since_of_trace ht, hp⟩

theorem traverse_children (env : Env) (op : String) (path : List Nat) (n : Node) (w : World) :
    (n.traverse env op path w).1.children = (beforePost env op path n w).1.children := by
  rw [traverse_eq]; rfl

theorem traverse_data (env : Env) (op : String) (path : List Nat) (n : Node) (w : World) :
    (n.traverse env op path w).1.data =
      (callPostTraverse env path op (beforePost env op path n w).1
        ((beforePost env op path n w).2.emit [⟨path, .postTraverse op⟩])).1 := by
  rw [traverse_eq]; rfl

/-! ## Validity propagation -/

theorem verifyChildren_eq_true (env : Env) :
    ∀ (cs : List (String × Node)) (v : Bool),
      verifyChildren env v cs = true ↔
        v = true ∧ ∀ c ∈ cs, c.2.getFlags &&& env.required ≠ 0 → c.2.isValid = true
  | [], v => by simp [verifyChildren]
  | c :: rest, v => by
    have ih := verifyChildren_eq_true env rest
    unfold verifyChildren at ih ⊢
    rw [List.foldl_cons, ih]
    by_cases h : c.2.getFlags &&& env.required ≠ 0
    · rw [if_pos h]
      simp only [Bool.and_eq_true, List.mem_cons, forall_eq_or_imp]
      constructor
      · rintro ⟨⟨hv, hc⟩, hr⟩
        exact ⟨hv, fun _ => hc, hr⟩
      · rintro ⟨hv, hc, hr⟩
        exact ⟨⟨hv, hc h⟩, hr⟩
    · rw [if_neg h]
      simp only [List.mem_cons, forall_eq_or_imp]
      constructor
      · rintro ⟨hv, hr⟩
        exact ⟨hv, fun h2 => absurd h2 h, hr⟩
      · rintro ⟨hv, -, hr⟩
        exact ⟨hv, hr⟩

/-- The stored `valid` flag of the node a "verify" traversal returns. -/
theorem traverse_verify_valid (env : Env) (path : List Nat) (n : Node) (w : World) :
    (n.traverse env "verify" path w).1.isValid =
      verifyChildren env (env.computeValid n) (n.traverse env "verify" path w).1.children := by
  rw [traverse_eq]
  simp [Node.isValid, Node.data, Node.children, callPostTraverse_data, beforePost, enter_data]

/-- C1: after `traverse(ctx, "verify")` on a node, its `valid` flag is set exactly when its
own `computeValid()` returned true and every child carrying the `required` bit is valid at
that point.  Hence an invalid required child makes the parent invalid, and children
without the bit cannot: if the own check passes and every invalid child lacks the bit, the
parent ends valid. -/
theorem C1_verify_required_children (env : Env) (path : List Nat) (n : Node) (w : World) :
    ((n.traverse env "verify" path w).1.isValid = true ↔
      env.computeValid n = true ∧
      ∀ c ∈ (n.traverse env "verify" path w).1.children,
        c.2.getFlags &&& env.required ≠ 0 → c.2.isValid = true) ∧
    (∀ c ∈ (n.traverse env "verify" path w).1.children,
      c.2.getFlags &&& env.required ≠ 0 → c.2.isValid = false →
      (n.traverse env "verify" path w).1.isValid = false) ∧
    (env.computeValid n = true →
      (∀ c ∈ (n.traverse env "verify" path w).1.children,
        c.2.isValid = false → c.2.getFlags &&& env.required = 0) →
      (n.traverse env "verify" path w).1.isValid = true) := by
  have key := traverse_verify_valid env path n w
  have iff := verifyChildren_eq_true env (n.traverse env "verify" path w).1.children
    (env.computeValid n)
  rw [← key] at iff
  refine ⟨iff, ?_, ?_⟩
  · intro c hc hreq hinv
    by_contra hne
    have hv : (n.traverse env "verify" path w).1.isValid = true := by
      cases h : (n.traverse env "verify" path w).1.isValid
      · exact absurd h hne
      · rfl
    have := (iff.1 hv).2 c hc hreq
    rw [hinv] at this
    exact Bool.noConfusion this
  · intro hcv hall
    refine iff.2 ⟨hcv, ?_⟩
    intro c hc hreq
    cases h : c.2.isValid
    · exact absurd (hall c hc h) hreq
    · rfl

/-- C1, witness: with a required child that passes its check and an invalid child that is
not required, the parent whose own check passes ends valid. -/
theorem C1_verify_required_children_witness :
    rangeEnv.computeValid sceneOptionalInvalid = true ∧
    (∀ c ∈ (sceneOptionalInvalid.traverse rangeEnv "verify" [] World.initial).1.children,
      c.2.isValid = false → c.2.getFlags &&& rangeEnv.required = 0) ∧
    (sceneOptionalInvalid.traverse rangeEnv "verify" [] World.initial).1.isValid = true :=
  ⟨by decide, by decide,
   (C1_verify_required_children rangeEnv [] sceneOptionalInvalid World.initial).2.2
     (by decide) (by decide)⟩

/-- With a required child and a child that is not required both failing their check, the
parent ends invalid although its own check passes. -/
theorem verify_sceneBothInvalid :
    rangeEnv.computeValid sceneBothInvalid = true ∧
    (sceneBothInvalid.traverse rangeEnv "verify" [] World.initial).1.children.map
      (fun c => (c.1, c.2.getFlags, c.2.isValid)) = [("a", 1, false), ("b", 0, false)] ∧
    (sceneBothInvalid.traverse rangeEnv "verify" [] World.initial).1.isValid = false := by
  decide

/-! ## Descent is gated by the stored `valid` flag -/

/-- When the node is invalid after its pre-order hook, the traversal leaves the children
as they are and records events of the node itself only. -/
theorem traverse_of_invalid (env : Env) (op : String) (path : List Nat) (n : Node) (w : World)
    (hv : (enter env path op n w).1.valid = false) :
    (n.traverse env op path w).1.children = n.children ∧
    ∀ e ∈ w.since (n.traverse env op path w).2, e.path = path := by
  have hskip := traverseChildren_invalid env op path (enter env path op n w).1 hv n.children 0
    (enter env path op n w).2.levelUp
  constructor
  · rw [traverse_children, beforePost_children, hskip]
  · obtain ⟨ea, ha, hpa, -⟩ := enter_since env path op n w
    obtain ⟨ec, hc, hpc, -⟩ := post_since_eq env op path n w
    have hb : (enter env path op n w).2.since (beforePost env op path n w).2 = [] := by
      unfold World.since
      rw [beforePost_trace, hskip]
      simp [World.levelUp]
    rw [traverse_since, ha, hb, hc]
    intro e he
    simp only [List.append_nil, List.mem_append, List.mem_cons] at he
    rcases he with (rfl | h) | rfl | h
    · rfl
    · exact (hpa e h).1
    · rfl
    · exact (hpc e h).1

/-- C2 (as amended): under "verify", a node whose `computeValid()` returns false has none
of its children visited: its children are returned unchanged and every recorded event is
an event of the node itself.  Under any other operation `computeValid()` is not consulted
and the same holds when the stored `valid` flag of the node is false. -/
theorem C2_invalid_node_short_circuit (env : Env) (op : String) (path : List Nat)
    (n : Node) (w : World)
    (h : (op = "verify" ∧ env.computeValid n = false) ∨ (op ≠ "verify" ∧ n.isValid = false)) :
    (n.traverse env op path w).1.children = n.children ∧
    ∀ e ∈ w.since (n.traverse env op path w).2, e.path = path := by
  apply traverse_of_invalid
  rw [enter_data]
  rcases h with ⟨h1, h2⟩ | ⟨h1, h2⟩
  · simp [h1, h2]
  · simpa [h1] using h2

/-- C2, witness: a "verify" traversal of the parent whose self-check fails. -/
theorem C2_invalid_node_short_circuit_witness :
    (("verify" = "verify" ∧ rangeEnv.computeValid editedParent = false) ∨
      ("verify" ≠ "verify" ∧ editedParent.isValid = false)) ∧
    (editedParent.traverse rangeEnv "verify" [] World.initial).1.children =
      editedParent.children ∧
    ∀ e ∈ World.initial.since (editedParent.traverse rangeEnv "verify" [] World.initial).2,
      e.path = [] :=
  ⟨Or.inl ⟨rfl, rfl⟩,
   C2_invalid_node_short_circuit rangeEnv "verify" [] editedParent World.initial
     (Or.inl ⟨rfl, rfl⟩)⟩

/-- C2, counterexample: under "commit" the self-check is not consulted.  The parent's
`computeValid()` returns false, yet its stored flag is set, so the child is visited (its
pre-order hook runs) and its `lastCommitted` moves from 0 to 100. -/
theorem C2_counterexample :
    rangeEnv.computeValid editedParent = false ∧
    editedParent.isValid = true ∧
    (⟨[0], .preTraverse "commit"⟩ : Event) ∈
      (editedParent.traverse rangeEnv "commit" [] World.initial).2.trace ∧
    editedParent.children.map (fun c => c.2.getLastCommitted) = [0] ∧
    (editedParent.traverse rangeEnv "commit" [] World.initial).1.children.map
      (fun c => c.2.getLastCommitted) = [100] := by
  decide

theorem append_singleton_prefix_eq {p : List Nat} {i j : Nat}
    (h : (p ++ [j]) <+: (p ++ [i])) : j = i := by
  have hl : (p ++ [j]).length = (p ++ [i]).length := by simp
  have := h.eq_of_length hl
  simpa using this

theorem not_append_singleton_prefix (p : List Nat) (j : Nat) : ¬ (p ++ [j]) <+: p := by
  intro h
  have := h.length_le
  simp at this

/-- The events of the loop over the children belong to nodes at or below one of the
children walked. -/
theorem traverseChildren_below (env : Env) (op : String) (path : List Nat) (parent : NodeData) :
    ∀ (cs : List (String × Node)) (i : Nat) (w : World),
      ∀ e ∈ w.since (traverseChildren env op path parent i cs w).2,
        ∃ j, i ≤ j ∧ j < i + cs.length ∧ (path ++ [j]) <+: e.path
  | [], i, w => by simp [traverseChildren, since_self]
  | (key, child) :: rest, i, w => by
    intro e he
    simp only [traverseChildren] at he
    split at he
    · rw [since_append (traverse_extends env op (path ++ [i]) child w).1
        (traverseChildren_extends env op path parent (i + 1) rest _).1] at he
      rcases List.mem_append.1 he with h | h
      · exact ⟨i, le_rfl, by simp, (traverse_extends env op (path ++ [i]) child w).1.since_below e h⟩
      · obtain ⟨j, h1, h2, h3⟩ := traverseChildren_below env op path parent rest (i + 1) _ e h
        exact ⟨j, by omega, by simp only [List.length_cons]; omega, h3⟩
    · obtain ⟨j, h1, h2, h3⟩ := traverseChildren_below env op path parent rest (i + 1) _ e he
      exact ⟨j, by omega, by simp only [List.length_cons]; omega, h3⟩

/-- The events of the children of a node are not events of the node itself. -/
theorem children_events_path_ne (env : Env) (op : String) (path : List Nat) (n : Node)
    (w : World) :
    ∀ e ∈ (enter env path op n w).2.since (beforePost env op path n w).2, e.path ≠ path := by
  intro e he
  have he2 : e ∈ (enter env path op n w).2.levelUp.since
      (traverseChildren env op path (enter env path op n w).1 0 n.children
        (enter env path op n w).2.levelUp).2 := by
    unfold World.since at he ⊢
    rw [beforePost_trace] at he
    simpa [World.levelUp] using he
  obtain ⟨j, -, -, hp⟩ := traverseChildren_below env op path _ _ _ _ e he2
  intro hne
  rw [hne] at hp
  exact not_append_singleton_prefix path j hp

/-- A traversal calls the pre-order hook of the node it is called on exactly once. -/
theorem traverse_marker_count (env : Env) (op : String) (path : List Nat) (n : Node)
    (w : World) :
    (w.since (n.traverse env op path w).2).count ⟨path, .preTraverse op⟩ = 1 := by
  obtain ⟨ea, ha, hpa, -⟩ := enter_since env path op n w
  obtain ⟨ec, hc, hpc, -⟩ := post_since_eq env op path n w
  have za : ea.count ⟨path, .preTraverse op⟩ = 0 := by
    rw [List.count_eq_zero]
    intro hm
    have := (hpa _ hm).2.1
    simp [Action.isMarker] at this
  have zb : ((enter env path op n w).2.since (beforePost env op path n w).2).count
      ⟨path, .preTraverse op⟩ = 0 := by
    rw [List.count_eq_zero]
    intro hm
    exact children_events_path_ne env op path n w _ hm rfl
  have zc : ec.count ⟨path, .preTraverse op⟩ = 0 := by
    rw [List.count_eq_zero]
    intro hm
    have := (hpc _ hm).2.1
    simp [Action.isMarker] at this
  rw [traverse_since, ha, hc]
  simp [List.count_append, List.count_cons, za, zb, zc]

/-- With a valid parent the loop calls the pre-order hook of every child exactly once. -/
theorem traverseChildren_marker_count (env : Env) (op : String) (path : List Nat)
    (parent : NodeData) (hv : parent.valid = true) :
    ∀ (cs : List (String × Node)) (i : Nat) (w : World) (j : Nat),
      i ≤ j → j < i + cs.length →
      (w.since (traverseChildren env op path parent i cs w).2).count
        ⟨path ++ [j], .preTraverse op⟩ = 1
  | [], i, w, j => by intro h1 h2; simp at h2; omega
  | (key, child) :: rest, i, w, j => by
    intro h1 h2
    simp only [traverseChildren, hv, if_true]
    rw [since_append (traverse_extends env op (path ++ [i]) child w).1
      (traverseChildren_extends env op path parent (i + 1) rest _).1, List.count_append]
    by_cases hij : j = i
    · subst hij
      rw [traverse_marker_count]
      have : ((child.traverse env op (path ++ [j]) w).2.since
          (traverseChildren env op path parent (j + 1) rest
            (child.traverse env op (path ++ [j]) w).2).2).count
          ⟨path ++ [j], .preTraverse op⟩ = 0 := by
        rw [List.count_eq_zero]
        intro hm
        obtain ⟨k, hk1, -, hk3⟩ := traverseChildren_below env op path parent rest (j + 1) _ _ hm
        have := append_singleton_prefix_eq hk3
        omega
      rw [this]
    · have z : ((w.since (child.traverse env op (path ++ [i]) w).2).count
          ⟨path ++ [j], .preTraverse op⟩) = 0 := by
        rw [List.count_eq_zero]
        intro hm
        have hp := (traverse_extends env op (path ++ [i]) child w).1.since_below _ hm
        exact hij (append_singleton_prefix_eq hp).symm
      rw [z, traverseChildren_marker_count env op path parent hv rest (i + 1) _ j (by omega)
        (by simp only [List.length_cons] at h2; omega)]

/-- With a valid parent the loop is the plain walk over all children. -/
theorem traverseChildren_eq_traverseAll (env : Env) (op : String) (path : List Nat)
    (parent : NodeData) (hv : parent.valid = true) :
    ∀ (cs : List (String × Node)) (i : Nat) (w : World),
      traverseChildren env op path parent i cs w = traverseAll env op path i cs w
  | [], i, w => by simp [traverseChildren, traverseAll]
  | (key, child) :: rest, i, w => by
    simp only [traverseChildren, traverseAll, hv, if_true]
    rw [traverseChildren_eq_traverseAll env op path parent hv rest]

/-- C3: the children of a node are recursed into only if the node's stored `valid` flag is
set after its pre-order hook.  If it is not set, the children are returned unchanged and
every recorded event is an event of the node itself.  If it is set, the children are
walked one after the other with the same operation and the same context, and the
pre-order hook of every child is called exactly once. -/
theorem C3_descent_gated_by_valid (env : Env) (op : String) (path : List Nat)
    (n : Node) (w : World) :
    ((enter env path op n w).1.valid = false →
      (n.traverse env op path w).1.children = n.children ∧
      ∀ e ∈ w.since (n.traverse env op path w).2, e.path = path) ∧
    ((enter env path op n w).1.valid = true →
      (n.traverse env op path w).1.children =
        (traverseAll env op path 0 n.children (enter env path op n w).2.levelUp).1 ∧
      (beforePost env op path n w).2.trace =
        (traverseAll env op path 0 n.children (enter env path op n w).2.levelUp).2.trace ∧
      ∀ i, i < n.children.length →
        (w.since (n.traverse env op path w).2).count ⟨path ++ [i], .preTraverse op⟩ = 1) := by
  refine ⟨traverse_of_invalid env op path n w, ?_⟩
  intro hv
  have hall := traverseChildren_eq_traverseAll env op path (enter env path op n w).1 hv
    n.children 0 (enter env path op n w).2.levelUp
  refine ⟨?_, ?_, ?_⟩
  · rw [traverse_children, beforePost_children, hall]
  · rw [beforePost_trace, hall]
  · intro i hi
    obtain ⟨ea, ha, hpa, -⟩ := enter_since env path op n w
    obtain ⟨ec, hc, hpc, -⟩ := post_since_eq env op path n w
    have hne : (path ++ [i]) ≠ path := by simp
    have za : (w.since (enter env path op n w).2).count ⟨path ++ [i], .preTraverse op⟩ = 0 := by
      rw [List.count_eq_zero, ha]
      intro hm
      rcases List.mem_cons.1 hm with h | h
      · exact hne (congrArg Event.path h)
      · exact hne (hpa _ h).1
    have zc : ((beforePost env op path n w).2.since (n.traverse env op path w).2).count
        ⟨path ++ [i], .preTraverse op⟩ = 0 := by
      rw [List.count_eq_zero, hc]
      intro hm
      rcases List.mem_cons.1 hm with h | h
      · exact hne (congrArg Event.path h)
      · exact hne (hpc _ h).1
    have zb : ((enter env path op n w).2.since (beforePost env op path n w).2).count
        ⟨path ++ [i], .preTraverse op⟩ = 1 := by
      have := traverseChildren_marker_count env op path (enter env path op n w).1 hv
        n.children 0 (enter env path op n w).2.levelUp i (Nat.zero_le _) (by omega)
      unfold World.since at this ⊢
      rw [beforePost_trace]
      simpa [World.levelUp] using this
    rw [traverse_since, List.count_append, List.count_append, za, zb, zc]

/-- C3, witness: a valid parent with one child under "commit"; the child's pre-order hook
is called exactly once. -/
theorem C3_descent_gated_by_valid_witness :
    (enter passingEnv [] "commit" staleParent World.initial).1.valid = true ∧
    (World.initial.since (staleParent.traverse passingEnv "commit" [] World.initial).2).count
      ⟨[] ++ [0], .preTraverse "commit"⟩ = 1 :=
  ⟨by decide,
   ((C3_descent_gated_by_valid passingEnv "commit" [] staleParent World.initial).2
      (by decide)).2.2 0 (by decide)⟩

/-! ## Commit: dirty nodes, timestamps and idempotence -/

theorem Node.eta (n : Node) : Node.mk n.data n.children = n := by
  cases n; rfl

theorem settled_iff (n : Node) :
    n.settled ↔ ¬ n.dirty ∧ (n.isValid = true → settledAll n.children) := by
  cases n with
  | mk d cs => simp [Node.settled, Node.isValid, Node.data, Node.children]

theorem foldl_max_lt {b : Nat} : ∀ (l : List Nat) (init : Nat),
    init < b → (∀ x ∈ l, x < b) → l.foldl max init < b
  | [], init, h, _ => by simpa using h
  | x :: l, init, h, hl => by
    rw [List.foldl_cons]
    apply foldl_max_lt l
    · exact max_lt h (hl x (List.mem_cons_self _ _))
    · intro y hy; exact hl y (List.mem_cons_of_mem _ hy)

theorem foldl_max_le {b : Nat} : ∀ (l : List Nat) (init : Nat),
    init ≤ b → (∀ x ∈ l, x ≤ b) → l.foldl max init ≤ b
  | [], init, h, _ => by simpa using h
  | x :: l, init, h, hl => by
    rw [List.foldl_cons]
    apply foldl_max_le l
    · exact max_le h (hl x (List.mem_cons_self _ _))
    · intro y hy; exact hl y (List.mem_cons_of_mem _ hy)

theorem self_mem_subnodes (n : Node) : n ∈ n.subnodes := by
  cases n; simp [Node.subnodes]

theorem subnodesOf_mem {cs : List (String × Node)} {c : String × Node} (hc : c ∈ cs) :
    ∀ m ∈ c.2.subnodes, m ∈ subnodesOf cs := by
  induction cs with
  | nil => cases hc
  | cons hd tl ih =>
    intro m hm
    obtain ⟨k, x⟩ := hd
    simp only [subnodesOf, List.mem_append]
    rcases List.mem_cons.1 hc with h | h
    · subst h; exact Or.inl hm
    · exact Or.inr (ih h m hm)

theorem subnodes_children (n : Node) : ∀ m ∈ subnodesOf n.children, m ∈ n.subnodes := by
  cases n with
  | mk d cs => intro m hm; simp [Node.subnodes, Node.children] at hm ⊢; exact Or.inr hm

theorem child_mem_subnodes {n : Node} {c : String × Node} (hc : c ∈ n.children) :
    c.2 ∈ n.subnodes :=
  subnodes_children n _ (subnodesOf_mem hc _ (self_mem_subnodes c.2))

/-- The children timestamp of a node depends on the framed fields of the children only. -/
theorem getChildrenLastModified_congr {a b : Node}
    (h : b.children.map (fun c => (c.1, c.2.data.frame)) =
         a.children.map (fun c => (c.1, c.2.data.frame))) :
    b.getChildrenLastModified = a.getChildrenLastModified := by
  cases a; cases b
  exact getChildrenLastModified_eq_of_frame h

/-- Walking the children does not change the children timestamp of the node. -/
theorem beforePost_getChildrenLastModified (env : Env) (op : String) (path : List Nat)
    (n : Node) (w : World) :
    (beforePost env op path n w).1.getChildrenLastModified = n.getChildrenLastModified := by
  apply getChildrenLastModified_congr
  rw [beforePost_children]
  exact traverseChildren_frame env op path _ _ _ _

/-- Under an operation other than "verify" the node reaching the post-order hook has the
fields it had on entry, so the dirty test gives the same answer. -/
theorem beforePost_dirty_iff (env : Env) (op : String) (path : List Nat)
    (n : Node) (w : World) :
    (beforePost env op path n w).1.dirty ↔ n.dirty := by
  unfold Node.dirty
  rw [beforePost_getChildrenLastModified]
  simp [Node.getLastModified, Node.getLastCommitted, beforePost_data, enter_data]

theorem getChildrenLastModified_lt {n : Node} {b : Nat} (h0 : 0 < b)
    (h : ∀ m ∈ n.subnodes, m.getLastModified < b) : n.getChildrenLastModified < b := by
  unfold Node.getChildrenLastModified
  apply foldl_max_lt _ _ h0
  intro x hx
  obtain ⟨c, hc, rfl⟩ := List.mem_map.1 hx
  exact h _ (child_mem_subnodes hc)

theorem traverse_getLastModified (env : Env) (op : String) (path : List Nat)
    (n : Node) (w : World) :
    (n.traverse env op path w).1.getLastModified = n.getLastModified := by
  have := congrArg NodeData.lastModified (traverse_frame env op path n w)
  simpa [NodeData.frame] using this

theorem traverse_getFlags (env : Env) (op : String) (path : List Nat)
    (n : Node) (w : World) :
    (n.traverse env op path w).1.getFlags = n.getFlags := by
  have := congrArg NodeData.flags (traverse_frame env op path n w)
  simpa [NodeData.frame] using this

theorem traverse_getChildrenLastModified (env : Env) (op : String) (path : List Nat)
    (n : Node) (w : World) :
    (n.traverse env op path w).1.getChildrenLastModified = n.getChildrenLastModified := by
  rw [← beforePost_getChildrenLastModified env op path n w]
  apply getChildrenLastModified_congr
  rw [traverse_children]

/-- Only "verify" writes the stored `valid` flag. -/
theorem traverse_isValid (env : Env) (op : String) (path : List Nat) (n : Node) (w : World)
    (hop : op ≠ "verify") : (n.traverse env op path w).1.isValid = n.isValid := by
  unfold Node.isValid
  rw [traverse_data, callPostTraverse_data]
  simp [hop, beforePost_data, enter_data]

/-- The `lastCommitted` a traversal leaves at the node it is called on. -/
theorem traverse_getLastCommitted (env : Env) (op : String) (path : List Nat)
    (n : Node) (w : World) :
    (n.traverse env op path w).1.getLastCommitted =
      if op = "commit" ∧ n.dirty then env.now (beforePost env op path n w).2.clock
      else n.getLastCommitted := by
  unfold Node.getLastCommitted
  rw [traverse_data, callPostTraverse_data]
  simp only [beforePost_dirty_iff, World.emit, beforePost_data, enter_data]

theorem beforePost_clock_ge (env : Env) (op : String) (path : List Nat) (n : Node) (w : World) :
    w.clock ≤ (beforePost env op path n w).2.clock :=
  ((enter_extends env path op n w).trans (beforePost_extends env op path n w)).1

/-- After a "commit" traversal with a clock ahead of the stored modification times, the
node the traversal was called on is not dirty. -/
theorem traverse_commit_not_dirty (env : Env) (path : List Nat) (n : Node) (w : World)
    (h : ClockAhead env w n) : ¬ (n.traverse env "commit" path w).1.dirty := by
  unfold Node.dirty
  rw [traverse_getLastModified, traverse_getChildrenLastModified, traverse_getLastCommitted]
  by_cases hd : n.dirty
  · simp only [hd, and_self, if_true]
    have hk := beforePost_clock_ge env "commit" path n w
    have h1 := h _ hk n (self_mem_subnodes n)
    have h2 := getChildrenLastModified_lt (Nat.lt_of_le_of_lt (Nat.zero_le _) h1) (h _ hk)
    omega
  · simp only [hd, and_false, if_false]
    exact hd

theorem clockAhead_child {env : Env} {w w' : World} {cs : List (String × Node)}
    {c : String × Node} (hc : c ∈ cs) (hw : w.clock ≤ w'.clock)
    (h : ∀ k, w.clock ≤ k → ∀ m ∈ subnodesOf cs, m.getLastModified < env.now k) :
    ClockAhead env w' c.2 :=
  fun k hk m hm => h k (le_trans hw hk) m (subnodesOf_mem hc m hm)

mutual
/-- After a "commit" traversal with a clock ahead of the stored modification times,
the tree is settled. -/
theorem traverse_commit_settled (env : Env) :
    ∀ (path : List Nat) (n : Node) (w : World), ClockAhead env w n →
      (n.traverse env "commit" path w).1.settled
  | path, .mk d cs, w, h => by
    rw [settled_iff]
    refine ⟨traverse_commit_not_dirty env path _ w h, ?_⟩
    intro hv
    rw [traverse_isValid env "commit" path _ w (by decide)] at hv
    rw [traverse_children, beforePost_children]
    have hv2 : (enter env path "commit" (.mk d cs) w).1.valid = true := by
      rw [enter_data]; simpa [Node.isValid] using hv
    apply traverseChildren_commit_settled env path _ hv2 0 cs
    intro k hk m hm
    have hk2 : w.clock ≤ k := by
      have := (enter_extends env path "commit" (.mk d cs) w).1
      simp only [World.levelUp] at hk
      omega
    exact h k hk2 m (subnodes_children (.mk d cs) m hm)
/-- The loop over the children of a valid parent leaves all of them settled. -/
theorem traverseChildren_commit_settled (env : Env) :
    ∀ (path : List Nat) (parent : NodeData), parent.valid = true →
      ∀ (i : Nat) (cs : List (String × Node)) (w : World),
      (∀ k, w.clock ≤ k → ∀ m ∈ subnodesOf cs, m.getLastModified < env.now k) →
      settledAll (traverseChildren env "commit" path parent i cs w).1
  | path, parent, hv, i, [], w, _ => by simp [traverseChildren, settledAll]
  | path, parent, hv, i, (key, child) :: rest, w, h => by
    simp only [traverseChildren, hv, if_true, settledAll]
    refine ⟨?_, ?_⟩
    · apply traverse_commit_settled env (path ++ [i]) child w
      exact clockAhead_child (c := (key, child)) (List.mem_cons_self _ _) le_rfl h
    · apply traverseChildren_commit_settled env path parent hv (i + 1) rest
      intro k hk m hm
      have hc := (traverse_extends env "commit" (path ++ [i]) child w).1.1
      apply h k (le_trans hc hk) m
      simp only [subnodesOf, List.mem_append]
      exact Or.inr hm
end

theorem isCommitHook_eq_false {a : Action} (h1 : a ≠ .preCommit) (h2 : a ≠ .postCommit) :
    a.isCommitHook = false := by
  cases a <;> simp [Action.isCommitHook] at h1 h2 ⊢

theorem enter_data_of_ne_verify (env : Env) (path : List Nat) (op : String) (n : Node)
    (w : World) (hop : op ≠ "verify") : (enter env path op n w).1 = n.data := by
  rw [enter_data]; simp [hop]

/-- The events of the pre-order part of a "commit" on a node that is not dirty are not
calls of a commit hook. -/
theorem enter_no_commit_hook (env : Env) (path : List Nat) (n : Node) (w : World)
    (hd : ¬ n.dirty) :
    ∀ e ∈ w.since (enter env path "commit" n w).2, e.action.isCommitHook = false := by
  obtain ⟨evs, he, hp, hiff⟩ := enter_since env path "commit" n w
  rw [he]
  intro e hm
  rcases List.mem_cons.1 hm with h | h
  · subst h; rfl
  · apply isCommitHook_eq_false _ (hp e h).2.2
    intro hpre
    apply hd
    apply (hiff.1 _).2
    have : e = ⟨path, .preCommit⟩ := by
      cases e; simp only [Event.mk.injEq]; exact ⟨(hp _ h).1, hpre⟩
    rw [← this]; exact h

/-- The events of the post-order part of a "commit" on a node that is not dirty are not
calls of a commit hook. -/
theorem post_no_commit_hook (env : Env) (path : List Nat) (n : Node) (w : World)
    (hd : ¬ n.dirty) :
    ∀ e ∈ (beforePost env "commit" path n w).2.since (n.traverse env "commit" path w).2,
      e.action.isCommitHook = false := by
  obtain ⟨evs, he, hp, hiff⟩ := post_since_eq env "commit" path n w
  rw [he]
  intro e hm
  rcases List.mem_cons.1 hm with h | h
  · subst h; rfl
  · apply isCommitHook_eq_false (hp e h).2.2
    intro hpost
    apply hd
    apply (beforePost_dirty_iff env "commit" path n w).1
    apply (hiff.1 _).2
    have : e = ⟨path, .postCommit⟩ := by
      cases e; simp only [Event.mk.injEq]; exact ⟨(hp _ h).1, hpost⟩
    rw [← this]; exact h

theorem traverse_clock (env : Env) (op : String) (path : List Nat) (n : Node) (w : World) :
    (n.traverse env op path w).2.clock =
      if op = "commit" ∧ n.dirty then (beforePost env op path n w).2.clock + 1
      else (beforePost env op path n w).2.clock := by
  rw [traverse_world_eq]
  obtain ⟨-, hk, -⟩ := callPostTraverse_world env path op (beforePost env op path n w).1
    ((beforePost env op path n w).2.emit [⟨path, .postTraverse op⟩])
  rw [hk]
  simp only [beforePost_dirty_iff, World.emit]

mutual
/-- A "commit" traversal of a settled tree returns the tree as it is, reads no clock and
calls no commit hook. -/
theorem traverse_commit_of_settled (env : Env) :
    ∀ (path : List Nat) (n : Node) (w : World), n.settled →
      (n.traverse env "commit" path w).1 = n ∧
      (n.traverse env "commit" path w).2.clock = w.clock ∧
      ∀ e ∈ w.since (n.traverse env "commit" path w).2, e.action.isCommitHook = false
  | path, .mk d cs, w, hs => by
    obtain ⟨hd, hch⟩ := (settled_iff _).1 hs
    have hent := enter_data_of_ne_verify env path "commit" (.mk d cs) w (by decide)
    obtain ⟨ih1, ih2, ih3⟩ := traverseChildren_commit_of_settled env path
      (enter env path "commit" (.mk d cs) w).1 0 cs (enter env path "commit" (.mk d cs) w).2.levelUp
      (by rw [hent]; exact hch)
    have hcs : (beforePost env "commit" path (.mk d cs) w).1.children = cs := by
      rw [beforePost_children]; exact ih1
    have hbc : (beforePost env "commit" path (.mk d cs) w).2.clock = w.clock := by
      rw [beforePost_clock]
      simp only [Node.children]
      rw [ih2]
      exact (enter_world env path "commit" (.mk d cs) w).2.1
    refine ⟨?_, ?_, ?_⟩
    · have hdata : (Node.traverse env "commit" path (.mk d cs) w).1.data = d := by
        rw [traverse_data, callPostTraverse_data, beforePost_data, hent]
        have hnd : ¬ ("commit" = "commit" ∧ (beforePost env "commit" path (.mk d cs) w).1.dirty) :=
          fun h => hd ((beforePost_dirty_iff env "commit" path _ w).1 h.2)
        rw [if_neg hnd, if_neg (by decide)]
        rfl
      rw [← Node.eta (Node.traverse env "commit" path (.mk d cs) w).1, traverse_children, hcs,
        hdata]
    · rw [traverse_clock]; simp [hd, hbc]
    · rw [traverse_since]
      intro e he
      rcases List.mem_append.1 he with h | h
      · rcases List.mem_append.1 h with h | h
        · exact enter_no_commit_hook env path _ w hd e h
        · apply ih3 e
          unfold World.since at h ⊢
          rw [beforePost_trace] at h
          simpa [World.levelUp, Node.children] using h
      · exact post_no_commit_hook env path _ w hd e h
/-- The loop over the children of a "commit" on a settled tree changes no child, reads no
clock and calls no commit hook. -/
theorem traverseChildren_commit_of_settled (env : Env) :
    ∀ (path : List Nat) (parent : NodeData) (i : Nat) (cs : List (String × Node)) (w : World),
      (parent.valid = true → settledAll cs) →
      (traverseChildren env "commit" path parent i cs w).1 = cs ∧
      (traverseChildren env "commit" path parent i cs w).2.clock = w.clock ∧
      ∀ e ∈ w.since (traverseChildren env "commit" path parent i cs w).2,
        e.action.isCommitHook = false
  | path, parent, i, [], w, _ => by simp [traverseChildren, since_self]
  | path, parent, i, (key, child) :: rest, w, hs => by
    by_cases hv : parent.valid = true
    · obtain ⟨hc, hr⟩ := hs hv
      obtain ⟨a1, a2, a3⟩ := traverse_commit_of_settled env (path ++ [i]) child w hc
      obtain ⟨b1, b2, b3⟩ := traverseChildren_commit_of_settled env path parent (i + 1) rest
        (child.traverse env "commit" (path ++ [i]) w).2 (fun _ => hr)
      simp only [traverseChildren, hv, if_true]
      refine ⟨by rw [a1, b1], by rw [b2, a2], ?_⟩
      rw [since_append (traverse_extends env "commit" (path ++ [i]) child w).1
        (traverseChildren_extends env "commit" path parent (i + 1) rest _).1]
      intro e he
      rcases List.mem_append.1 he with h | h
      · exact a3 e h
      · exact b3 e h
    · have hv2 : parent.valid = false := by simpa using hv
      rw [traverseChildren_invalid env "commit" path parent hv2]
      simp [since_self]
end

/-- C4: under a strictly increasing clock (every reading still to come is later than every
stored `lastModified`), a second "commit" traversal of the tree the first one returned,
with nothing modified in between and from any context, returns the tree unchanged (so no
`lastCommitted` moves), reads no clock, and calls neither `preCommit` nor `postCommit` on
any node. -/
theorem C4_second_commit_is_noop (env : Env) (path : List Nat) (n : Node) (w w2 : World)
    (hclock : ClockAhead env w n) :
    ((n.traverse env "commit" path w).1.traverse env "commit" path w2).1 =
      (n.traverse env "commit" path w).1 ∧
    ((n.traverse env "commit" path w).1.traverse env "commit" path w2).2.clock = w2.clock ∧
    ∀ e ∈ w2.since ((n.traverse env "commit" path w).1.traverse env "commit" path w2).2,
      e.action ≠ .preCommit ∧ e.action ≠ .postCommit := by
  obtain ⟨h1, h2, h3⟩ := traverse_commit_of_settled env path _ w2
    (traverse_commit_settled env path n w hclock)
  refine ⟨h1, h2, ?_⟩
  intro e he
  have := h3 e he
  constructor <;> intro hc <;> rw [hc] at this <;> simp [Action.isCommitHook] at this

/-- C4, witness: the one-child scene with the clock reading 100, 101, ... -/
theorem C4_second_commit_is_noop_witness :
    ClockAhead passingEnv World.initial staleParent ∧
    ((staleParent.traverse passingEnv "commit" [] World.initial).1.traverse
        passingEnv "commit" [] World.initial).1 =
      (staleParent.traverse passingEnv "commit" [] World.initial).1 :=
  have h : ClockAhead passingEnv World.initial staleParent := by
    intro k _ m hm
    simp [staleParent, group, leaf, Node.subnodes, subnodesOf] at hm
    rcases hm with rfl | rfl <;> simp [Node.getLastModified, Node.data, passingEnv] <;> omega
  ⟨h, (C4_second_commit_is_noop passingEnv [] staleParent World.initial World.initial h).1⟩

theorem reachable_iff (n m : Node) :
    m ∈ n.reachable ↔ m = n ∨ (n.isValid = true ∧ m ∈ reachableOf n.children) := by
  cases n with
  | mk d cs =>
    by_cases hv : d.valid = true <;>
      simp [Node.reachable, Node.isValid, Node.data, Node.children, hv]

theorem getChildrenLastModified_le {n : Node} {b : Nat}
    (h : ∀ m ∈ n.subnodes, m.getLastModified ≤ b) : n.getChildrenLastModified ≤ b := by
  unfold Node.getChildrenLastModified
  apply foldl_max_le _ _ (Nat.zero_le _)
  intro x hx
  obtain ⟨c, hc, rfl⟩ := List.mem_map.1 hx
  exact h _ (child_mem_subnodes hc)

/-- After a "commit" traversal under a monotonic clock, the commit of the node the
traversal was called on is up to date. -/
theorem traverse_commit_upToDate (env : Env) (path : List Nat) (n : Node) (w : World)
    (h : ClockNotBehind env w n) : (n.traverse env "commit" path w).1.upToDate := by
  unfold Node.upToDate
  rw [traverse_getLastModified, traverse_getChildrenLastModified, traverse_getLastCommitted]
  by_cases hd : n.dirty
  · simp only [hd, and_self, if_true]
    have hk := beforePost_clock_ge env "commit" path n w
    exact ⟨(h _ hk n (self_mem_subnodes n)).1,
      getChildrenLastModified_le (fun m hm => (h _ hk m hm).1)⟩
  · simp only [hd, and_false, if_false]
    unfold Node.dirty at hd
    constructor <;> omega

mutual
/-- After a "commit" traversal under a monotonic clock, the commit of every node the
traversal reached is up to date. -/
theorem traverse_commit_reachable (env : Env) :
    ∀ (path : List Nat) (n : Node) (w : World), ClockNotBehind env w n →
      ∀ m ∈ (n.traverse env "commit" path w).1.reachable, m.upToDate
  | path, .mk d cs, w, h => by
    intro m hm
    rcases (reachable_iff _ _).1 hm with rfl | ⟨hv, hr⟩
    · exact traverse_commit_upToDate env path _ w h
    · rw [traverse_isValid env "commit" path _ w (by decide)] at hv
      rw [traverse_children, beforePost_children] at hr
      have hv2 : (enter env path "commit" (.mk d cs) w).1.valid = true := by
        rw [enter_data]; simpa [Node.isValid] using hv
      refine traverseChildren_commit_reachable env path _ hv2 0 cs _ ?_ m hr
      intro k hk x hx
      have hk2 : w.clock ≤ k := by
        have := (enter_extends env path "commit" (.mk d cs) w).1
        simp only [World.levelUp] at hk
        omega
      exact h k hk2 x (subnodes_children (.mk d cs) x hx)
/-- The loop over the children of a valid parent leaves the commit of every node it
reached up to date. -/
theorem traverseChildren_commit_reachable (env : Env) :
    ∀ (path : List Nat) (parent : NodeData), parent.valid = true →
      ∀ (i : Nat) (cs : List (String × Node)) (w : World),
      (∀ k, w.clock ≤ k → ∀ m ∈ subnodesOf cs,
        m.getLastModified ≤ env.now k ∧ m.getLastCommitted ≤ env.now k) →
      ∀ m ∈ reachableOf (traverseChildren env "commit" path parent i cs w).1, m.upToDate
  | path, parent, hv, i, [], w, _ => by simp [traverseChildren, reachableOf]
  | path, parent, hv, i, (key, child) :: rest, w, h => by
    simp only [traverseChildren, hv, if_true, reachableOf, List.mem_append]
    intro m hm
    rcases hm with hm | hm
    · refine traverse_commit_reachable env (path ++ [i]) child w ?_ m hm
      intro k hk x hx
      exact h k hk x (subnodesOf_mem (c := (key, child)) (List.mem_cons_self _ _) x hx)
    · refine traverseChildren_commit_reachable env path parent hv (i + 1) rest _ ?_ m hm
      intro k hk x hx
      have hc := (traverse_extends env "commit" (path ++ [i]) child w).1.1
      apply h k (le_trans hc hk) x
      simp only [subnodesOf, List.mem_append]
      exact Or.inr hx
end

/-- C5 (as amended): under a monotonic clock, after `traverse(ctx, "commit")` on the root
every node the traversal reached (the root, and the children of every reached node whose
stored `valid` flag is set) has `lastCommitted >= lastModified` and `lastCommitted >=` its
children timestamp. -/
theorem C5_commit_up_to_date (env : Env) (path : List Nat) (n : Node) (w : World)
    (hclock : ClockNotBehind env w n) :
    ∀ m ∈ (n.traverse env "commit" path w).1.reachable,
      m.getLastCommitted ≥ m.getLastModified ∧
      m.getLastCommitted ≥ m.getChildrenLastModified :=
  traverse_commit_reachable env path n w hclock

theorem clockNotBehind_unverifiedParent :
    ClockNotBehind passingEnv World.initial unverifiedParent := by
  intro k _ m hm
  simp [unverifiedParent, group, leaf, Node.subnodes, subnodesOf] at hm
  rcases hm with rfl | rfl <;>
    simp [Node.getLastModified, Node.getLastCommitted, Node.data, passingEnv] <;> omega

theorem clockNotBehind_staleParent :
    ClockNotBehind passingEnv World.initial staleParent := by
  intro k _ m hm
  simp [staleParent, group, leaf, Node.subnodes, subnodesOf] at hm
  rcases hm with rfl | rfl <;>
    simp [Node.getLastModified, Node.getLastCommitted, Node.data, passingEnv] <;> omega

/-- C5, witness: the valid parent with one modified child; both nodes are reached. -/
theorem C5_commit_up_to_date_witness :
    ClockNotBehind passingEnv World.initial staleParent ∧
    ∀ m ∈ (staleParent.traverse passingEnv "commit" [] World.initial).1.reachable,
      m.getLastCommitted ≥ m.getLastModified ∧
      m.getLastCommitted ≥ m.getChildrenLastModified :=
  ⟨clockNotBehind_staleParent,
   C5_commit_up_to_date passingEnv [] staleParent World.initial clockNotBehind_staleParent⟩

/-- C5, counterexample: the parent has never been verified, so "commit" does not descend.
The clock is monotonic, the traversal completes, and the child still has
`lastCommitted = 0 < 20 = lastModified`. -/
theorem C5_counterexample :
    ClockNotBehind passingEnv World.initial unverifiedParent ∧
    (unverifiedParent.traverse passingEnv "commit" [] World.initial).1.subnodes.map
      (fun m => (m.getLastModified, m.getLastCommitted)) = [(5, 100), (20, 0)] ∧
    ∃ m ∈ (unverifiedParent.traverse passingEnv "commit" [] World.initial).1.subnodes,
      ¬ (m.getLastCommitted ≥ m.getLastModified) :=
  ⟨clockNotBehind_unverifiedParent, by decide, by decide⟩

/-- In a "commit" traversal `preCommit` is recorded for the node the traversal is called
on exactly when the node is dirty on entry. -/
theorem preCommit_mem_iff (env : Env) (path : List Nat) (n : Node) (w : World) :
    (⟨path, .preCommit⟩ : Event) ∈ w.since (enter env path "commit" n w).2 ↔ n.dirty := by
  obtain ⟨evs, he, -, hiff⟩ := enter_since env path "commit" n w
  rw [he, List.mem_cons, hiff]
  simp

/-- In a "commit" traversal `postCommit` is recorded for the node by the post-order part
exactly when the node is dirty at that point. -/
theorem postCommit_mem_iff (env : Env) (path : List Nat) (n : Node) (w : World) :
    (⟨path, .postCommit⟩ : Event) ∈
        (beforePost env "commit" path n w).2.since (n.traverse env "commit" path w).2 ↔
      (beforePost env "commit" path n w).1.dirty := by
  obtain ⟨evs, he, -, hiff⟩ := post_since_eq env "commit" path n w
  rw [he, List.mem_cons, hiff]
  simp

theorem mem_since_of_enter (env : Env) (op : String) (path : List Nat) (n : Node) (w : World)
    {e : Event} (h : e ∈ w.since (enter env path op n w).2) :
    e ∈ w.since (n.traverse env op path w).2 := by
  rw [traverse_since]; simp [h]

theorem mem_since_of_post (env : Env) (op : String) (path : List Nat) (n : Node) (w : World)
    {e : Event}
    (h : e ∈ (beforePost env op path n w).2.since (n.traverse env op path w).2) :
    e ∈ w.since (n.traverse env op path w).2 := by
  rw [traverse_since]; simp [h]

/-- C6: a node whose `lastModified` equals its `lastCommitted` is dirty for the "commit"
traversal that visits it, whatever its children timestamp is: `preCommit` and
`postCommit` are both called on it and its `lastCommitted` becomes the reading of the
clock taken in the post-order hook. -/
theorem C6_equal_timestamps_are_dirty (env : Env) (path : List Nat) (n : Node) (w : World)
    (h : n.getLastModified = n.getLastCommitted) :
    (⟨path, .preCommit⟩ : Event) ∈ w.since (n.traverse env "commit" path w).2 ∧
    (⟨path, .postCommit⟩ : Event) ∈ w.since (n.traverse env "commit" path w).2 ∧
    (n.traverse env "commit" path w).1.getLastCommitted =
      env.now (beforePost env "commit" path n w).2.clock ∧
    (n.traverse env "commit" path w).2.clock =
      (beforePost env "commit" path n w).2.clock + 1 := by
  have hd : n.dirty := Or.inl (le_of_eq h.symm)
  refine ⟨?_, ?_, ?_, ?_⟩
  · exact mem_since_of_enter env "commit" path n w ((preCommit_mem_iff env path n w).2 hd)
  · exact mem_since_of_post env "commit" path n w
      ((postCommit_mem_iff env path n w).2 ((beforePost_dirty_iff env "commit" path n w).2 hd))
  · rw [traverse_getLastCommitted]; simp [hd]
  · rw [traverse_clock]; simp [hd]

/-- C6, witness: a leaf modified and committed at the same time 7, while the clock reads
100; the commit moves `lastCommitted` to 100. -/
theorem C6_equal_timestamps_are_dirty_witness :
    (leaf "a" 0 7 7 true).getLastModified = (leaf "a" 0 7 7 true).getLastCommitted ∧
    ((leaf "a" 0 7 7 true).traverse passingEnv "commit" [] World.initial).1.getLastCommitted =
      passingEnv.now (beforePost passingEnv "commit" [] (leaf "a" 0 7 7 true) World.initial).2.clock :=
  ⟨rfl, (C6_equal_timestamps_are_dirty passingEnv [] (leaf "a" 0 7 7 true) World.initial rfl).2.2.1⟩

/-! ## The children timestamp held by the context -/

theorem le_foldl_max : ∀ (l : List Nat) (init : Nat),
    init ≤ l.foldl max init ∧ ∀ x ∈ l, x ≤ l.foldl max init
  | [], init => by simp
  | y :: l, init => by
    obtain ⟨h1, h2⟩ := le_foldl_max l (max init y)
    rw [List.foldl_cons]
    refine ⟨le_trans (le_max_left _ _) h1, ?_⟩
    intro x hx
    rcases List.mem_cons.1 hx with rfl | h
    · exact le_trans (le_max_right _ _) h1
    · exact h2 x h

theorem foldl_max_eq_or_mem : ∀ (l : List Nat) (init : Nat),
    l.foldl max init = init ∨ l.foldl max init ∈ l
  | [], init => by simp
  | y :: l, init => by
    rw [List.foldl_cons]
    rcases foldl_max_eq_or_mem l (max init y) with h | h
    · rw [h]
      rcases max_choice init y with hm | hm
      · exact Or.inl hm
      · exact Or.inr (by rw [hm]; exact List.mem_cons_self _ _)
    · exact Or.inr (List.mem_cons_of_mem _ h)

/-- For a node with at least one child, the modelled children timestamp is the largest
`lastModified` among the children. -/
theorem getChildrenLastModified_isMax (n : Node) (hne : n.children ≠ []) :
    (∀ c ∈ n.children, c.2.getLastModified ≤ n.getChildrenLastModified) ∧
    ∃ c ∈ n.children, c.2.getLastModified = n.getChildrenLastModified := by
  unfold Node.getChildrenLastModified
  obtain ⟨-, hle⟩ := le_foldl_max (n.children.map (fun c => c.2.getLastModified)) 0
  refine ⟨fun c hc => hle _ (List.mem_map_of_mem _ hc), ?_⟩
  rcases foldl_max_eq_or_mem (n.children.map (fun c => c.2.getLastModified)) 0 with h | h
  · obtain ⟨c, hc⟩ := List.exists_mem_of_ne_nil _ hne
    refine ⟨c, hc, ?_⟩
    have := hle _ (List.mem_map_of_mem (fun c => c.2.getLastModified) hc)
    rw [h] at this ⊢
    omega
  · obtain ⟨c, hc, he⟩ := List.mem_map.1 h
    exact ⟨c, hc, he⟩

theorem beforePost_childMTime (env : Env) (op : String) (path : List Nat) (n : Node)
    (w : World) :
    (beforePost env op path n w).2.ctx.childMTime =
      (beforePost env op path n w).1.getChildrenLastModified := rfl

theorem beforePost_children_ne_nil (env : Env) (op : String) (path : List Nat) (n : Node)
    (w : World) (hne : n.children ≠ []) : (beforePost env op path n w).1.children ≠ [] := by
  intro h
  have hf := traverseChildren_frame env op path (enter env path op n w).1 n.children 0
    (enter env path op n w).2.levelUp
  rw [← beforePost_children, h] at hf
  simp at hf
  exact hne hf

/-- C7: for a node with at least one child and any operation, at the point of `traverse`
where the children have been walked and the post-order hook has not yet run,
`ctx.childMTime` is the largest `lastModified` among the node's children: no child has a
later one and some child has exactly this one.  It is also the value the node's children
timestamp had before the walk. -/
theorem C7_childMTime_is_latest_child (env : Env) (op : String) (path : List Nat)
    (n : Node) (w : World) (hne : n.children ≠ []) :
    (∀ c ∈ (beforePost env op path n w).1.children,
      c.2.getLastModified ≤ (beforePost env op path n w).2.ctx.childMTime) ∧
    (∃ c ∈ (beforePost env op path n w).1.children,
      c.2.getLastModified = (beforePost env op path n w).2.ctx.childMTime) ∧
    (∀ c ∈ n.children,
      c.2.getLastModified ≤ (beforePost env op path n w).2.ctx.childMTime) ∧
    (∃ c ∈ n.children,
      c.2.getLastModified = (beforePost env op path n w).2.ctx.childMTime) := by
  have h1 := getChildrenLastModified_isMax (beforePost env op path n w).1
    (beforePost_children_ne_nil env op path n w hne)
  have h2 := getChildrenLastModified_isMax n hne
  rw [← beforePost_getChildrenLastModified env op path n w] at h2
  rw [beforePost_childMTime]
  exact ⟨h1.1, h1.2, h2.1, h2.2⟩

/-- C7, witness: the parent with one child modified at time 20. -/
theorem C7_childMTime_is_latest_child_witness :
    staleParent.children ≠ [] ∧
    ∃ c ∈ staleParent.children,
      c.2.getLastModified =
        (beforePost passingEnv "commit" [] staleParent World.initial).2.ctx.childMTime :=
  ⟨by simp [staleParent, group, Node.children],
   (C7_childMTime_is_latest_child passingEnv "commit" [] staleParent World.initial
      (by simp [staleParent, group, Node.children])).2.2.2⟩

/-! ## The dirty test of the commit hooks -/

/-- C8 (as amended): in a "commit" traversal the pre-order hook calls `preCommit` on the
node exactly when `lastModified >= lastCommitted` or the node's own children timestamp
`getChildrenLastModified()` is `>= lastCommitted`; this is also the only way `preCommit`
gets recorded for the node in the whole traversal.  The value `ctx.childMTime` holds
while the hook runs is the constant 1 and takes no part in the test. -/
theorem C8_preCommit_iff_dirty (env : Env) (path : List Nat) (n : Node) (w : World) :
    ((⟨path, .preCommit⟩ : Event) ∈ w.since (enter env path "commit" n w).2 ↔
      (n.getLastModified ≥ n.getLastCommitted ∨
       n.getChildrenLastModified ≥ n.getLastCommitted)) ∧
    ((⟨path, .preCommit⟩ : Event) ∈ w.since (n.traverse env "commit" path w).2 ↔
      (n.getLastModified ≥ n.getLastCommitted ∨
       n.getChildrenLastModified ≥ n.getLastCommitted)) ∧
    (enter env path "commit" n w).2.ctx.childMTime = 1 := by
  refine ⟨preCommit_mem_iff env path n w, ⟨?_, ?_⟩, ?_⟩
  · intro h
    rw [traverse_since] at h
    rcases List.mem_append.1 h with h | h
    · rcases List.mem_append.1 h with h | h
      · exact (preCommit_mem_iff env path n w).1 h
      · exact absurd rfl (children_events_path_ne env "commit" path n w _ h)
    · obtain ⟨evs, he, hp, -⟩ := post_since_eq env "commit" path n w
      rw [he] at h
      rcases List.mem_cons.1 h with h | h
      · cases h
      · exact absurd rfl (hp _ h).2.2
  · intro h
    exact mem_since_of_enter env "commit" path n w ((preCommit_mem_iff env path n w).2 h)
  · rw [(enter_world env path "commit" n w).1]

/-- C8, counterexample: the parent was committed at 10, modified at 5, and its child was
modified at 20.  While the pre-order hook runs `ctx.childMTime` is 1, so the test of the
claim (`5 >= 10` or `1 >= 10`) is false, yet `preCommit` is called. -/
theorem C8_counterexample :
    (enter passingEnv [] "commit" staleParent World.initial).2.ctx.childMTime = 1 ∧
    (⟨[], .preCommit⟩ : Event) ∈
      World.initial.since (enter passingEnv [] "commit" staleParent World.initial).2 ∧
    ¬ (staleParent.getLastModified ≥ staleParent.getLastCommitted ∨
       (enter passingEnv [] "commit" staleParent World.initial).2.ctx.childMTime ≥
         staleParent.getLastCommitted) := by
  decide

/-- C9: in a "commit" traversal the post-order hook calls `postCommit` on the node and
sets its `lastCommitted` to the reading of the clock exactly when
`lastModified >= lastCommitted` or `ctx.childMTime >= lastCommitted`, with the
`ctx.childMTime` recomputed after the walk over the children; otherwise `postCommit` is
not called and `lastCommitted` stays as it was. -/
theorem C9_postCommit_iff_dirty (env : Env) (path : List Nat) (n : Node) (w : World) :
    ((⟨path, .postCommit⟩ : Event) ∈
        (beforePost env "commit" path n w).2.since (n.traverse env "commit" path w).2 ↔
      ((beforePost env "commit" path n w).1.getLastModified ≥
          (beforePost env "commit" path n w).1.getLastCommitted ∨
       (beforePost env "commit" path n w).2.ctx.childMTime ≥
          (beforePost env "commit" path n w).1.getLastCommitted)) ∧
    (((beforePost env "commit" path n w).1.getLastModified ≥
          (beforePost env "commit" path n w).1.getLastCommitted ∨
       (beforePost env "commit" path n w).2.ctx.childMTime ≥
          (beforePost env "commit" path n w).1.getLastCommitted) →
      (n.traverse env "commit" path w).1.getLastCommitted =
        env.now (beforePost env "commit" path n w).2.clock ∧
      (n.traverse env "commit" path w).2.clock =
        (beforePost env "commit" path n w).2.clock + 1) ∧
    (¬ ((beforePost env "commit" path n w).1.getLastModified ≥
          (beforePost env "commit" path n w).1.getLastCommitted ∨
       (beforePost env "commit" path n w).2.ctx.childMTime ≥
          (beforePost env "commit" path n w).1.getLastCommitted) →
      (n.traverse env "commit" path w).1.getLastCommitted =
        (beforePost env "commit" path n w).1.getLastCommitted ∧
      (n.traverse env "commit" path w).2.clock = (beforePost env "commit" path n w).2.clock ∧
      ∀ e ∈ (beforePost env "commit" path n w).2.since (n.traverse env "commit" path w).2,
        e.action ≠ .postCommit) := by
  rw [beforePost_childMTime]
  have hlc : (beforePost env "commit" path n w).1.getLastCommitted = n.getLastCommitted := by
    simp [Node.getLastCommitted, beforePost_data, enter_data]
  refine ⟨postCommit_mem_iff env path n w, ?_, ?_⟩
  · intro h
    have hd : n.dirty := (beforePost_dirty_iff env "commit" path n w).1 h
    rw [traverse_getLastCommitted, traverse_clock]
    simp [hd]
  · intro h
    have hd : ¬ n.dirty := fun hd => h ((beforePost_dirty_iff env "commit" path n w).2 hd)
    rw [traverse_getLastCommitted, traverse_clock, hlc]
    refine ⟨by simp [hd], by simp [hd], ?_⟩
    intro e he hpost
    have := post_no_commit_hook env path n w hd e he
    rw [hpost] at this
    simp [Action.isCommitHook] at this

/-- C9, witness: the parent committed at 10 whose child was modified at 20 is dirty by
the recomputed `ctx.childMTime = 20`; its `lastCommitted` becomes the clock reading. -/
theorem C9_postCommit_iff_dirty_witness :
    ((beforePost passingEnv "commit" [] staleParent World.initial).1.getLastModified ≥
        (beforePost passingEnv "commit" [] staleParent World.initial).1.getLastCommitted ∨
      (beforePost passingEnv "commit" [] staleParent World.initial).2.ctx.childMTime ≥
        (beforePost passingEnv "commit" [] staleParent World.initial).1.getLastCommitted) ∧
    (staleParent.traverse passingEnv "commit" [] World.initial).1.getLastCommitted =
        passingEnv.now (beforePost passingEnv "commit" [] staleParent World.initial).2.clock ∧
    (staleParent.traverse passingEnv "commit" [] World.initial).2.clock =
        (beforePost passingEnv "commit" [] staleParent World.initial).2.clock + 1 :=
  ⟨by decide,
   (C9_postCommit_iff_dirty passingEnv [] staleParent World.initial).2.1 (by decide)⟩

/-! ## `lastCommitted` never goes back -/

theorem subnodes_eq (n : Node) : n.subnodes = n :: subnodesOf n.children := by
  cases n; simp [Node.subnodes, Node.children]

theorem forall₂_append {α β : Type} {R : α → β → Prop} {l1 l2 : List α} {m1 m2 : List β}
    (h1 : List.Forall₂ R l1 m1) (h2 : List.Forall₂ R l2 m2) :
    List.Forall₂ R (l1 ++ l2) (m1 ++ m2) := by
  induction h1 with
  | nil => simpa using h2
  | cons h _ ih => exact List.Forall₂.cons h ih

theorem forall₂_self {α : Type} {R : α → α → Prop} (hR : ∀ a, R a a) :
    ∀ l : List α, List.Forall₂ R l l
  | [] => List.Forall₂.nil
  | a :: l => List.Forall₂.cons (hR a) (forall₂_self hR l)

/-- The step of the node the traversal is called on. -/
theorem traverse_commitStep (env : Env) (op : String) (path : List Nat) (n : Node) (w : World)
    (h : op = "commit" → ClockNotBehind env w n) :
    CommitStep op n (n.traverse env op path w).1 := by
  unfold CommitStep
  rw [traverse_getLastCommitted]
  by_cases hop : op = "commit"
  · by_cases hd : n.dirty
    · simp only [hop, hd, and_self, if_true, ne_eq, not_true_eq_false, false_implies, and_true]
      subst hop
      exact (h rfl _ (beforePost_clock_ge env "commit" path n w) n (self_mem_subnodes n)).2
    · simp [hop, hd]
  · simp [hop]

mutual
/-- Node by node, in pre-order, a traversal moves `lastCommitted` by a `CommitStep`. -/
theorem traverse_subnodes_commitStep (env : Env) (op : String) :
    ∀ (path : List Nat) (n : Node) (w : World), (op = "commit" → ClockNotBehind env w n) →
      List.Forall₂ (CommitStep op) n.subnodes (n.traverse env op path w).1.subnodes
  | path, .mk d cs, w, h => by
    rw [subnodes_eq (Node.mk d cs), subnodes_eq (Node.traverse env op path (.mk d cs) w).1]
    refine List.Forall₂.cons (traverse_commitStep env op path _ w h) ?_
    rw [traverse_children, beforePost_children]
    apply traverseChildren_subnodes_commitStep env op path _ 0 cs
    intro hop k hk m hm
    have hk2 : w.clock ≤ k := by
      have := (enter_extends env path op (.mk d cs) w).1
      simp only [World.levelUp] at hk
      omega
    exact h hop k hk2 m (subnodes_children (.mk d cs) m hm)
/-- The same for the loop over the children. -/
theorem traverseChildren_subnodes_commitStep (env : Env) (op : String) :
    ∀ (path : List Nat) (parent : NodeData) (i : Nat) (cs : List (String × Node)) (w : World),
      (op = "commit" → ∀ k, w.clock ≤ k → ∀ m ∈ subnodesOf cs,
        m.getLastModified ≤ env.now k ∧ m.getLastCommitted ≤ env.now k) →
      List.Forall₂ (CommitStep op) (subnodesOf cs)
        (subnodesOf (traverseChildren env op path parent i cs w).1)
  | path, parent, i, [], w, _ => by simp [traverseChildren, subnodesOf]
  | path, parent, i, (key, child) :: rest, w, h => by
    simp only [traverseChildren, subnodesOf]
    apply forall₂_append
    · split
      · apply traverse_subnodes_commitStep env op (path ++ [i]) child w
        intro hop k hk x hx
        exact h hop k hk x (subnodesOf_mem (c := (key, child)) (List.mem_cons_self _ _) x hx)
      · exact forall₂_self (fun a => ⟨le_rfl, fun _ => rfl⟩) _
    · apply traverseChildren_subnodes_commitStep env op path parent (i + 1) rest
      intro hop k hk x hx
      have hc : w.clock ≤ (if parent.valid = true then child.traverse env op (path ++ [i]) w
          else (child, w)).2.clock := by
        split
        · exact (traverse_extends env op (path ++ [i]) child w).1.1
        · exact le_rfl
      apply h hop k (le_trans hc hk) x
      simp only [subnodesOf, List.mem_append]
      exact Or.inr hx
end

theorem map_eq_of_forall₂ {α β : Type} {f : α → β} {R : α → α → Prop}
    (hR : ∀ a b, R a b → f b = f a) :
    ∀ {l m : List α}, List.Forall₂ R l m → m.map f = l.map f := by
  intro l m h
  induction h with
  | nil => rfl
  | cons hab _ ih => simp [hR _ _ hab, ih]

/-- C10: under a monotonic clock no traversal, whatever the operation, decreases the
`lastCommitted` of any node of the tree (nodes compared one by one in pre-order).
`lastCommitted` is written by the post-order hook of a "commit" only: the pre-order hook
never changes it, the post-order hook changes it under no other operation, and for every
operation other than "commit" every node's `lastCommitted` after the traversal equals its
value before. -/
theorem C10_lastCommitted_monotone (env : Env) (op : String) (path : List Nat)
    (n : Node) (w : World) :
    (ClockNotBehind env w n →
      List.Forall₂ (fun a b => a.getLastCommitted ≤ b.getLastCommitted)
        n.subnodes (n.traverse env op path w).1.subnodes) ∧
    (op ≠ "commit" →
      (n.traverse env op path w).1.subnodes.map Node.getLastCommitted =
        n.subnodes.map Node.getLastCommitted) ∧
    (callPreTraverse env path op n w).1.lastCommitted = n.getLastCommitted ∧
    (op ≠ "commit" → (callPostTraverse env path op n w).1.lastCommitted = n.getLastCommitted) := by
  refine ⟨?_, ?_, ?_, ?_⟩
  · intro hclock
    exact (traverse_subnodes_commitStep env op path n w (fun _ => hclock)).imp
      (fun _ _ h => h.1)
  · intro hop
    exact map_eq_of_forall₂ (R := CommitStep op) (fun _ _ h => h.2 hop)
      (traverse_subnodes_commitStep env op path n w (fun h => absurd h hop))
  · rw [callPreTraverse_data]; rfl
  · intro hop
    rw [callPostTraverse_data]; simp [hop, Node.getLastCommitted]

/-- C10, witness: a "commit" of the one-child scene under the clock 100, 101, ... -/
theorem C10_lastCommitted_monotone_witness :
    ClockNotBehind passingEnv World.initial staleParent ∧
    List.Forall₂ (fun a b => a.getLastCommitted ≤ b.getLastCommitted)
      staleParent.subnodes
      (staleParent.traverse passingEnv "commit" [] World.initial).1.subnodes :=
  ⟨clockNotBehind_staleParent,
   (C10_lastCommitted_monotone passingEnv "commit" [] staleParent World.initial).1
     clockNotBehind_staleParent⟩

/-! ## The node factory -/

theorem StdMap.find_assign_self {α : Type} (m : StdMap α) (k : String) (v : α) :
    (m.assign k v).find k = some v := by
  simp [StdMap.find, StdMap.assign, List.lookup]

theorem lookup_filter_ne {α : Type} {k k' : String} (h : k' ≠ k) :
    ∀ m : List (String × α), List.lookup k' (m.filter (fun e => e.1 != k)) = List.lookup k' m
  | [] => rfl
  | (a, v) :: m => by
    by_cases hak : a = k
    · subst hak
      have hne : (k' == a) = false := by simpa using h
      simp [List.filter_cons, List.lookup_cons, hne, lookup_filter_ne h m]
    · have hk : (a != k) = true := by simpa using hak
      simp only [List.filter_cons, hk, if_true, List.lookup_cons, lookup_filter_ne h m]

theorem StdMap.find_assign_ne {α : Type} (m : StdMap α) {k k' : String} (v : α)
    (h : k' ≠ k) : (m.assign k v).find k' = m.find k' := by
  have hne : (k' == k) = false := by simpa using h
  simp only [StdMap.find, StdMap.assign, List.lookup_cons, hne]
  exact lookup_filter_ne h m

/-- What the call of a creator and the set-up of the node do to the process state. -/
theorem instantiate_state (env : Env) (ld : Loader) (c : Nat) (name type : String)
    (var : SGVar) (flags : Int) (p : Process) (hc : c ≠ 0) :
    (instantiate env ld c name type var flags p).2.nodeRegistry = p.nodeRegistry ∧
    (instantiate env ld c name type var flags p).2.symbolLookups = p.symbolLookups ∧
    (instantiate env ld c name type var flags p).2.cout = p.cout ∧
    (instantiate env ld c name type var flags p).2.creatorCalls = p.creatorCalls ++ [c] := by
  unfold instantiate
  rw [if_neg hc]
  cases ld.construct c with
  | none => simp
  | some n =>
    by_cases hv : valid var = true
    · simp only [hv, if_true]
      cases (n.setUp name type flags).setValue var (env.now p.clock) <;> simp
    · simp [hv]

/-- Setting name, type and flags does not change which values a node takes. -/
theorem setUp_accepts (newNode : Node) (name type : String) (flags : Int) (var : SGVar) :
    (newNode.setUp name type flags).accepts var = newNode.accepts var := by
  cases newNode; rfl

/-- The handle a successful call of a creator yields, when `setValue` takes the initial
value. -/
theorem instantiate_ok (env : Env) (ld : Loader) (c : Nat) (name type : String)
    (var : SGVar) (flags : Int) (p : Process) (hc : c ≠ 0) (newNode : Node)
    (hn : ld.construct c = some newNode)
    (hacc : valid var = true → newNode.accepts var = true) :
    (instantiate env ld c name type var flags p).1 =
      .ok ⟨p.creatorCalls.length,
        if valid var = true then
          .mk { (newNode.setUp name type flags).data with
                value := var, lastModified := env.now p.clock }
              (newNode.setUp name type flags).children
        else newNode.setUp name type flags⟩ ∧
    (instantiate env ld c name type var flags p).2.clock =
      (if valid var = true then p.clock + 1 else p.clock) := by
  unfold instantiate
  rw [if_neg hc]
  simp only [hn]
  by_cases hv : valid var = true
  · have ha := hacc hv
    simp [hv, Node.setValue, setUp_accepts, ha]
  · simp [hv]

/-- A call of a creator whose node does not take the valid initial value fails with
`TypeMismatch` after the node has been constructed; no clock reading is taken. -/
theorem instantiate_mismatch (env : Env) (ld : Loader) (c : Nat) (name type : String)
    (var : SGVar) (flags : Int) (p : Process) (hc : c ≠ 0) (newNode : Node)
    (hn : ld.construct c = some newNode)
    (hv : valid var = true) (hrej : newNode.accepts var = false) :
    (instantiate env ld c name type var flags p).1 = .error .typeMismatch ∧
    (instantiate env ld c name type var flags p).2.clock = p.clock := by
  unfold instantiate
  rw [if_neg hc]
  simp only [hn]
  simp [hv, Node.setValue, setUp_accepts, hrej]

/-- A call of `createNode` for a type that is not in the registry but resolves. -/
theorem createNode_fresh (env : Env) (ld : Loader) (name type : String) (var : SGVar)
    (flags : Int) (p : Process) (c : Nat)
    (hmiss : p.nodeRegistry.find type = none)
    (hres : ld.getSymbol ("ospray_create_sg_node__" ++ type) = c) (hc : c ≠ 0) :
    createNode env ld name type var flags p =
      instantiate env ld c name type var flags
        { p with
          symbolLookups := p.symbolLookups ++ ["ospray_create_sg_node__" ++ type],
          cout := p.cout ++ ["#osp:sg: creating at least one instance of node type '",
                             type, "'", "\n"],
          nodeRegistry := p.nodeRegistry.assign type c } := by
  unfold createNode
  simp only [hmiss, hres, if_neg hc]

/-- A call of `createNode` for a type the registry holds. -/
theorem createNode_cached (env : Env) (ld : Loader) (name type : String) (var : SGVar)
    (flags : Int) (p : Process) (c : Nat) (hhit : p.nodeRegistry.find type = some c) :
    createNode env ld name type var flags p =
      instantiate env ld c name type var flags p := by
  unfold createNode
  simp only [hhit]

/-- C12: for a type that is neither in the registry nor resolvable, `createNode` fails
with the unknown-node-type error, calls no constructor, reads no clock and leaves the
registry unchanged; a later call with the same type fails in the same way after
consulting the resolver again. -/
theorem C12_unknown_type_fails_cleanly (env : Env) (ld : Loader) (type : String)
    (name1 name2 : String) (var1 var2 : SGVar) (flags1 flags2 : Int) (p : Process)
    (hmiss : p.nodeRegistry.find type = none)
    (hres : ld.getSymbol ("ospray_create_sg_node__" ++ type) = 0) :
    (createNode env ld name1 type var1 flags1 p).1 =
      .error (.unknownNodeType ("unknown ospray scene graph node '" ++ type ++ "'")) ∧
    (createNode env ld name1 type var1 flags1 p).2.nodeRegistry = p.nodeRegistry ∧
    (createNode env ld name1 type var1 flags1 p).2.creatorCalls = p.creatorCalls ∧
    (createNode env ld name1 type var1 flags1 p).2.clock = p.clock ∧
    (createNode env ld name1 type var1 flags1 p).2.cout = p.cout ∧
    (createNode env ld name1 type var1 flags1 p).2.symbolLookups =
      p.symbolLookups ++ ["ospray_create_sg_node__" ++ type] ∧
    (createNode env ld name2 type var2 flags2
        (createNode env ld name1 type var1 flags1 p).2).1 =
      .error (.unknownNodeType ("unknown ospray scene graph node '" ++ type ++ "'")) ∧
    (createNode env ld name2 type var2 flags2
        (createNode env ld name1 type var1 flags1 p).2).2.symbolLookups =
      p.symbolLookups ++
        ["ospray_create_sg_node__" ++ type, "ospray_create_sg_node__" ++ type] := by
  have e1 : createNode env ld name1 type var1 flags1 p =
      (.error (.unknownNodeType ("unknown ospray scene graph node '" ++ type ++ "'")),
       { p with symbolLookups := p.symbolLookups ++ ["ospray_create_sg_node__" ++ type] }) := by
    unfold createNode
    simp only [hmiss, hres, if_true]
  have e2 : createNode env ld name2 type var2 flags2
      (createNode env ld name1 type var1 flags1 p).2 =
      (.error (.unknownNodeType ("unknown ospray scene graph node '" ++ type ++ "'")),
       { p with symbolLookups := p.symbolLookups ++
          ["ospray_create_sg_node__" ++ type, "ospray_create_sg_node__" ++ type] }) := by
    rw [e1]
    unfold createNode
    simp only [hmiss, hres, if_true]
    simp
  rw [e2, e1]
  exact ⟨rfl, rfl, rfl, rfl, rfl, rfl, rfl, rfl⟩

/-- C12, witness: the type `bogus` is unknown to the loader. -/
theorem C12_unknown_type_fails_cleanly_witness :
    Process.initial.nodeRegistry.find "bogus" = none ∧
    floatLoader.getSymbol ("ospray_create_sg_node__" ++ "bogus") = 0 ∧
    (createNode passingEnv floatLoader "x" "bogus" .empty 0 Process.initial).2.nodeRegistry =
      Process.initial.nodeRegistry :=
  ⟨by decide, by decide,
   (C12_unknown_type_fails_cleanly passingEnv floatLoader "bogus" "x" "x" .empty .empty 0 0
      Process.initial (by decide) (by decide)).2.1⟩

/-- The creator `createNode` ends up calling for a type: the cached one, or else the one
the resolver returns. -/
theorem creator_cases (ld : Loader) (type : String) (p : Process) (c : Nat)
    (h : p.nodeRegistry.find type = some c ∨
         (p.nodeRegistry.find type = none ∧
          ld.getSymbol ("ospray_create_sg_node__" ++ type) = c))
    (hc : c ≠ 0) (env : Env) (name : String) (var : SGVar) (flags : Int) :
    ∃ q : Process, q.clock = p.clock ∧ q.creatorCalls = p.creatorCalls ∧
      createNode env ld name type var flags p = instantiate env ld c name type var flags q := by
  rcases h with h | ⟨h1, h2⟩
  · exact ⟨p, rfl, rfl, createNode_cached env ld name type var flags p c h⟩
  · exact ⟨{ p with
        symbolLookups := p.symbolLookups ++ ["ospray_create_sg_node__" ++ type],
        cout := p.cout ++ ["#osp:sg: creating at least one instance of node type '",
                           type, "'", "\n"],
        nodeRegistry := p.nodeRegistry.assign type c }, rfl, rfl,
      createNode_fresh env ld name type var flags p c h1 h2 hc⟩

theorem flagWord_flagBits (flags : Int) (h1 : -2 ^ 31 ≤ flags) (h2 : flags < 2 ^ 31) :
    flagWord (flagBits flags) = flags := by
  unfold flagWord flagBits
  norm_num at h1 h2 ⊢
  have hnn : 0 ≤ flags % 4294967296 := Int.emod_nonneg _ (by norm_num)
  rw [max_eq_left hnn]
  have hcast : ((flags % 4294967296).toNat : Int) = flags % 4294967296 :=
    Int.toNat_of_nonneg hnn
  split
  · rename_i hs
    have : flags % 4294967296 < 2147483648 := by
      rw [← hcast]; exact_mod_cast hs
    omega
  · rename_i hs
    have : ¬ flags % 4294967296 < 2147483648 := by
      intro h
      apply hs
      have h' : ((flags % 4294967296).toNat : Int) < 2147483648 := by rw [hcast]; exact h
      exact_mod_cast h'
    omega

/-- C13 (as amended): for a registered or resolvable type whose constructor yields an
instance, `createNode` sets `name`, `type` and `flags` of the newly constructed node from
the arguments.  With an empty initial value `setValue` is not called: the node is returned
with the value and the `lastModified` its constructor gave it and no clock reading is
taken.  With a valid initial value that the node takes, the node is returned with the
value set to it and `lastModified` stamped with a clock reading.  With a valid initial
value that a strongly-typed node does not take, `setValue` fails with `TypeMismatch` and
`createNode` returns no node, after the constructor has been called. -/
theorem C13_createNode_sets_fields (env : Env) (ld : Loader) (name type : String)
    (var : SGVar) (flags : Int) (p : Process) (c : Nat) (newNode : Node)
    (h : p.nodeRegistry.find type = some c ∨
         (p.nodeRegistry.find type = none ∧
          ld.getSymbol ("ospray_create_sg_node__" ++ type) = c))
    (hc : c ≠ 0) (hn : ld.construct c = some newNode) :
    ((valid var = true → newNode.accepts var = true) →
      ∃ r : NodeH, (createNode env ld name type var flags p).1 = .ok r ∧
        r.object = p.creatorCalls.length ∧
        r.node.data.name = name ∧ r.node.data.type = type ∧
        r.node.data.flags = flagBits flags ∧
        (-2 ^ 31 ≤ flags → flags < 2 ^ 31 → flagWord r.node.data.flags = flags) ∧
        r.node.children = newNode.children ∧
        r.node.data.kind = newNode.data.kind ∧
        r.node.data.valueType = newNode.data.valueType ∧
        r.node.data.lastCommitted = newNode.data.lastCommitted ∧
        r.node.data.valid = newNode.data.valid ∧
        (valid var = true →
          r.node.data.value = var ∧ r.node.data.lastModified = env.now p.clock ∧
          (createNode env ld name type var flags p).2.clock = p.clock + 1) ∧
        (valid var = false →
          r.node.data.value = newNode.data.value ∧
          r.node.data.lastModified = newNode.data.lastModified ∧
          (createNode env ld name type var flags p).2.clock = p.clock)) ∧
    (valid var = true → newNode.accepts var = false →
      (createNode env ld name type var flags p).1 = .error .typeMismatch ∧
      (createNode env ld name type var flags p).2.clock = p.clock ∧
      (createNode env ld name type var flags p).2.creatorCalls = p.creatorCalls ++ [c]) := by
  obtain ⟨q, hq1, hq2, he⟩ := creator_cases ld type p c h hc env name var flags
  rw [he]
  constructor
  · intro hacc
    obtain ⟨o1, o2⟩ := instantiate_ok env ld c name type var flags q hc newNode hn hacc
    refine ⟨_, o1, ?_⟩
    rw [o2, hq1, hq2]
    have hfl : ∀ b : Nat, b = flagBits flags →
        (-2 ^ 31 ≤ flags → flags < 2 ^ 31 → flagWord b = flags) := by
      intro b hb h1 h2
      rw [hb]; exact flagWord_flagBits flags h1 h2
    by_cases hv : valid var = true
    · rw [if_pos hv, if_pos hv]
      exact ⟨rfl, rfl, rfl, rfl, hfl _ rfl, rfl, rfl, rfl, rfl, rfl,
        fun _ => ⟨rfl, rfl, rfl⟩, fun hf => absurd hv (by simp [hf])⟩
    · rw [if_neg hv, if_neg hv]
      exact ⟨rfl, rfl, rfl, rfl, hfl _ rfl, rfl, rfl, rfl, rfl, rfl,
        fun ht => absurd ht hv, fun _ => ⟨rfl, rfl, rfl⟩⟩
  · intro hv hrej
    obtain ⟨m1, m2⟩ := instantiate_mismatch env ld c name type var flags q hc newNode hn hv hrej
    refine ⟨m1, by rw [m2, hq1], ?_⟩
    rw [(instantiate_state env ld c name type var flags q hc).2.2.2, hq2]

/-- C13, witness: a `float` node created with the initial value `float 1`, which it
takes, while the clock reads 100. -/
theorem C13_createNode_sets_fields_witness :
    ∃ r : NodeH,
      (createNode passingEnv floatLoader "a" "float" (.float 1) (-3) Process.initial).1 = .ok r ∧
      r.node.data.name = "a" ∧ flagWord r.node.data.flags = -3 ∧
      r.node.data.value = .float 1 ∧ r.node.data.lastModified = 100 := by
  obtain ⟨r, h1, -, h2, -, -, hf, -, -, -, -, -, h3, -⟩ :=
    (C13_createNode_sets_fields passingEnv floatLoader "a" "float" (.float 1) (-3)
      Process.initial 4096 newFloatNode
      (Or.inr ⟨by decide, by decide⟩) (by decide) rfl).1 (fun _ => by decide)
  exact ⟨r, h1, h2, hf (by decide) (by decide), (h3 (by decide)).1, (h3 (by decide)).2.1⟩

/-- C13, counterexample: the type `float` is resolvable, its constructor yields an
instance and the initial value, a string, is valid; the strongly-typed `float` node does
not take it, `setValue` fails with `TypeMismatch` and `createNode` returns no node. -/
theorem C13_counterexample :
    Process.initial.nodeRegistry.find "float" = none ∧
    floatLoader.getSymbol ("ospray_create_sg_node__" ++ "float") = 4096 ∧
    floatLoader.construct 4096 = some newFloatNode ∧
    valid (.string "oops") = true ∧
    (createNode passingEnv floatLoader "x" "float" (.string "oops") 0 Process.initial).1 =
      .error .typeMismatch ∧
    ∀ r : NodeH,
      (createNode passingEnv floatLoader "x" "float" (.string "oops") 0 Process.initial).1 ≠
        .ok r :=
  ⟨by decide, by decide, rfl, by decide, rfl, fun r h => by
    have e : (createNode passingEnv floatLoader "x" "float" (.string "oops") 0
        Process.initial).1 = .error .typeMismatch := rfl
    rw [e] at h
    cases h⟩

/-! ## The directory of named nodes -/

/-- A lookup never changes the directory. -/
theorem findNamedNode_directory (m : StdMap Nat) (name : String) :
    (findNamedNode m name).2 = m := by
  unfold findNamedNode StdMap.index
  cases h : m.find name <;> simp

/-- The pointer a lookup returns: the stored one, or `NULL`. -/
theorem findNamedNode_result (m : StdMap Nat) (name : String) :
    (findNamedNode m name).1 = (m.find name).getD 0 := by
  unfold findNamedNode StdMap.index
  cases h : m.find name <;> simp

/-- C14: for a name that has no entry in the directory, `findNamedNode` returns `NULL`
and the directory after the lookup is the directory before it; in particular the name
still has no entry. -/
theorem C14_lookup_miss_is_null (m : StdMap Nat) (name : String)
    (hmiss : m.find name = none) :
    (findNamedNode m name).1 = 0 ∧
    (findNamedNode m name).2 = m ∧
    (findNamedNode m name).2.find name = none := by
  refine ⟨?_, findNamedNode_directory m name, ?_⟩
  · rw [findNamedNode_result, hmiss]; rfl
  · rw [findNamedNode_directory]; exact hmiss

/-- C14, witness: looking up `ghost` in a directory that only knows `mat`. -/
theorem C14_lookup_miss_is_null_witness :
    StdMap.find [("mat", 7)] "ghost" = none ∧
    (findNamedNode [("mat", 7)] "ghost").1 = 0 ∧
    (findNamedNode [("mat", 7)] "ghost").2 = [("mat", 7)] :=
  ⟨by decide,
   (C14_lookup_miss_is_null [("mat", 7)] "ghost" (by decide)).1,
   (C14_lookup_miss_is_null [("mat", 7)] "ghost" (by decide)).2.1⟩

/-- C15: after `registerNamedNode(name, node)` a lookup of `name` returns that node,
whatever was stored under the name before; a lookup of any other name returns what it
returned before; and neither function removes an entry: a name that had one still has
one after a registration, and a lookup leaves the directory as it is. -/
theorem C15_register_then_find (m : StdMap Nat) (name : String) (node : Nat) :
    (findNamedNode (registerNamedNode m name node) name).1 = node ∧
    (∀ other, other ≠ name →
      (findNamedNode (registerNamedNode m name node) other).1 = (findNamedNode m other).1) ∧
    (∀ key, m.find key ≠ none → (registerNamedNode m name node).find key ≠ none) ∧
    (∀ key, (findNamedNode m key).2 = m) := by
  refine ⟨?_, ?_, ?_, fun key => findNamedNode_directory m key⟩
  · rw [findNamedNode_result]
    unfold registerNamedNode
    rw [StdMap.find_assign_self]; rfl
  · intro other hne
    rw [findNamedNode_result, findNamedNode_result]
    unfold registerNamedNode
    rw [StdMap.find_assign_ne m node hne]
  · intro key hk
    unfold registerNamedNode
    by_cases h : key = name
    · subst h; rw [StdMap.find_assign_self]; simp
    · rw [StdMap.find_assign_ne m node h]; exact hk

/-- C15, witness: re-registering `mat` replaces the node stored under it and keeps the
entry of `tex`. -/
theorem C15_register_then_find_witness :
    ("tex" : String) ≠ "mat" ∧
    (findNamedNode (registerNamedNode [("mat", 7), ("tex", 9)] "mat" 8) "mat").1 = 8 ∧
    (findNamedNode (registerNamedNode [("mat", 7), ("tex", 9)] "mat" 8) "tex").1 =
      (findNamedNode [("mat", 7), ("tex", 9)] "tex").1 :=
  ⟨by decide,
   (C15_register_then_find [("mat", 7), ("tex", 9)] "mat" 8).1,
   (C15_register_then_find [("mat", 7), ("tex", 9)] "mat" 8).2.1 "tex" (by decide)⟩

/-! ## Valid values -/

/-- C16: a value of the tagged union is not valid exactly when its active alternative is
the empty one, which is the alternative of index 0; a value holding any of the twelve
payload alternatives is valid. -/
theorem C16_valid_iff_not_empty (v : SGVar) :
    (valid v = false ↔ v = .empty) ∧
    (v = .empty ↔ v.which = 0) ∧
    (v ≠ .empty → valid v = true) ∧
    (v.which ≤ 12) ∧
    (valid v = decide (v.which > 0)) := by
  cases v <;> simp [valid, SGVar.which]

/-! ## Operations without a branch -/

/-- On a node of the base class the two hooks do nothing under an operation that is none
of "print", "commit", "verify". -/
theorem hooks_unmatched (env : Env) (path : List Nat) (op : String) (n : Node) (w : World)
    (hk : n.data.kind = .node)
    (h1 : op ≠ "print") (h2 : op ≠ "commit") (h3 : op ≠ "verify") :
    callPreTraverse env path op n w = (n.data, w) ∧
    callPostTraverse env path op n w = (n.data, w) := by
  unfold callPreTraverse callPostTraverse Node.preTraverse Node.postTraverse
  simp [hk, h1, h2, h3]

/-- Under an operation other than "commit" and "verify" a traversal does not change the
fields of the node it is called on. -/
theorem traverse_data_unmatched (env : Env) (op : String) (path : List Nat) (n : Node)
    (w : World) (h2 : op ≠ "commit") (h3 : op ≠ "verify") :
    (n.traverse env op path w).1.data = n.data := by
  rw [traverse_data, callPostTraverse_data, beforePost_data, enter_data]
  simp [h2, h3]

mutual
/-- A traversal of base nodes under an operation without a branch returns the tree as it
is, reads no clock and records nothing but the calls of the two hooks. -/
theorem traverse_unmatched (env : Env) (op : String)
    (h1 : op ≠ "print") (h2 : op ≠ "commit") (h3 : op ≠ "verify") :
    ∀ (path : List Nat) (n : Node) (w : World),
      (∀ m ∈ n.subnodes, m.data.kind = .node) →
      (n.traverse env op path w).1 = n ∧
      (n.traverse env op path w).2.clock = w.clock ∧
      ∀ e ∈ w.since (n.traverse env op path w).2,
        e.action = .preTraverse op ∨ e.action = .postTraverse op
  | path, .mk d cs, w, hk => by
    have hroot : (Node.mk d cs).data.kind = .node := hk _ (self_mem_subnodes _)
    obtain ⟨ih1, ih2, ih3⟩ := traverseChildren_unmatched env op h1 h2 h3 path
      (enter env path op (.mk d cs) w).1 0 cs (enter env path op (.mk d cs) w).2.levelUp
      (fun m hm => hk m (subnodes_children (.mk d cs) m hm))
    have hent : (enter env path op (.mk d cs) w).2.trace =
        w.trace ++ [⟨path, .preTraverse op⟩] := by
      unfold enter
      rw [(hooks_unmatched env path op (.mk d cs) _ hroot h1 h2 h3).1]
      simp [World.emit]
    have hkb : (beforePost env op path (.mk d cs) w).1.data.kind = .node := by
      rw [beforePost_data, enter_data]; exact hroot
    have hpost : (Node.traverse env op path (.mk d cs) w).2.trace =
        (beforePost env op path (.mk d cs) w).2.trace ++ [⟨path, .postTraverse op⟩] := by
      rw [traverse_world_eq, (hooks_unmatched env path op _ _ hkb h1 h2 h3).2]
      simp [World.emit]
    refine ⟨?_, ?_, ?_⟩
    · rw [← Node.eta (Node.traverse env op path (.mk d cs) w).1, traverse_children,
        beforePost_children, traverse_data_unmatched env op path _ w h2 h3]
      simp only [Node.children]
      rw [ih1]; rfl
    · rw [traverse_clock, beforePost_clock]
      simp only [h2, false_and, if_false, Node.children]
      rw [ih2]
      exact (enter_world env path op (.mk d cs) w).2.1
    · rw [traverse_since, since_of_trace hent, since_of_trace hpost]
      intro e he
      simp only [List.mem_append, List.mem_singleton] at he
      rcases he with (rfl | h) | rfl
      · exact Or.inl rfl
      · apply ih3 e
        unfold World.since at h ⊢
        rw [beforePost_trace] at h
        simpa [World.levelUp, Node.children] using h
      · exact Or.inr rfl
/-- The same for the loop over the children. -/
theorem traverseChildren_unmatched (env : Env) (op : String)
    (h1 : op ≠ "print") (h2 : op ≠ "commit") (h3 : op ≠ "verify") :
    ∀ (path : List Nat) (parent : NodeData) (i : Nat) (cs : List (String × Node)) (w : World),
      (∀ m ∈ subnodesOf cs, m.data.kind = .node) →
      (traverseChildren env op path parent i cs w).1 = cs ∧
      (traverseChildren env op path parent i cs w).2.clock = w.clock ∧
      ∀ e ∈ w.since (traverseChildren env op path parent i cs w).2,
        e.action = .preTraverse op ∨ e.action = .postTraverse op
  | path, parent, i, [], w, _ => by simp [traverseChildren, since_self]
  | path, parent, i, (key, child) :: rest, w, hk => by
    by_cases hv : parent.valid = true
    · obtain ⟨a1, a2, a3⟩ := traverse_unmatched env op h1 h2 h3 (path ++ [i]) child w
        (fun m hm => hk m (subnodesOf_mem (c := (key, child)) (List.mem_cons_self _ _) m hm))
      obtain ⟨b1, b2, b3⟩ := traverseChildren_unmatched env op h1 h2 h3 path parent (i + 1) rest
        (child.traverse env op (path ++ [i]) w).2
        (fun m hm => hk m (by simp only [subnodesOf, List.mem_append]; exact Or.inr hm))
      simp only [traverseChildren, hv, if_true]
      refine ⟨by rw [a1, b1], by rw [b2, a2], ?_⟩
      rw [since_append (traverse_extends env op (path ++ [i]) child w).1
        (traverseChildren_extends env op path parent (i + 1) rest _).1]
      intro e he
      rcases List.mem_append.1 he with h | h
      · exact a3 e h
      · exact b3 e h
    · have hv2 : parent.valid = false := by simpa using hv
      rw [traverseChildren_invalid env op path parent hv2]
      simp [since_self]
end

/-- C17: for a tree of base nodes and an operation name other than "print", "commit" and
"verify", the two hooks are no-ops at every node and the traversal returns the tree
unchanged (so every node keeps its value, valid flag, flags, `lastModified` and
`lastCommitted`), reads no clock, and records nothing but the calls of `preTraverse` and
`postTraverse`: no commit hook is invoked and nothing is written. -/
theorem C17_unmatched_operation_is_noop (env : Env) (op : String) (path : List Nat)
    (n : Node) (w : World)
    (hbase : ∀ m ∈ n.subnodes, m.data.kind = .node)
    (h1 : op ≠ "print") (h2 : op ≠ "commit") (h3 : op ≠ "verify") :
    (n.traverse env op path w).1 = n ∧
    (n.traverse env op path w).2.clock = w.clock ∧
    (∀ e ∈ w.since (n.traverse env op path w).2,
      e.action = .preTraverse op ∨ e.action = .postTraverse op) ∧
    (∀ m ∈ n.subnodes, ∀ (q : List Nat) (v : World),
      callPreTraverse env q op m v = (m.data, v) ∧
      callPostTraverse env q op m v = (m.data, v)) := by
  obtain ⟨a, b, c⟩ := traverse_unmatched env op h1 h2 h3 path n w hbase
  exact ⟨a, b, c, fun m hm q v => hooks_unmatched env q op m v (hbase m hm) h1 h2 h3⟩

theorem staleParent_base : ∀ m ∈ staleParent.subnodes, m.data.kind = .node := by
  intro m hm
  simp [staleParent, group, leaf, Node.subnodes, subnodesOf] at hm
  rcases hm with rfl | rfl <;> rfl

/-- C17, witness: the operation "render" on a tree of base nodes. -/
theorem C17_unmatched_operation_is_noop_witness :
    (∀ m ∈ staleParent.subnodes, m.data.kind = .node) ∧
    (staleParent.traverse passingEnv "render" [] World.initial).1 = staleParent :=
  ⟨staleParent_base,
   (C17_unmatched_operation_is_noop passingEnv "render" [] staleParent World.initial
      staleParent_base (by decide) (by decide) (by decide)).1⟩

/-! ## Printing -/

theorem couts_append (a b : List Event) : couts (a ++ b) = couts a ++ couts b := by
  simp [couts, List.filterMap_append]

theorem couts_replicate (path : List Nat) (s : String) :
    ∀ k : Nat, couts (List.replicate k ⟨path, .cout s⟩) = List.replicate k s
  | 0 => rfl
  | k + 1 => by
    rw [List.replicate_succ, List.replicate_succ]
    have := couts_replicate path s k
    simp only [couts, List.filterMap_cons] at this ⊢
    rw [this]

/-- Under "print" the pre-order part of a traversal writes the line of the node and
changes neither the node nor the level. -/
theorem enter_print (env : Env) (path : List Nat) (n : Node) (w : World) :
    (enter env path "print" n w).1 = n.data ∧
    couts (w.since (enter env path "print" n w).2) = nodeWrites w.ctx.level.toNat n := by
  refine ⟨by rw [enter_data]; simp, ?_⟩
  have ht : (enter env path "print" n w).2.trace = w.trace ++
      (⟨path, .preTraverse "print"⟩ ::
        (List.replicate w.ctx.level.toNat ⟨path, .cout "  "⟩ ++
          [⟨path, .cout n.data.name⟩, ⟨path, .cout " : "⟩,
           ⟨path, .cout n.data.type⟩, ⟨path, .cout "\n"⟩])) := by
    unfold enter callPreTraverse Renderable.preTraverse Node.preTraverse
    cases n.data.kind <;> simp [World.emit]
  rw [since_of_trace ht]
  have hc : couts (⟨path, .preTraverse "print"⟩ ::
        (List.replicate w.ctx.level.toNat ⟨path, .cout "  "⟩ ++
          [⟨path, .cout n.data.name⟩, ⟨path, .cout " : "⟩,
           ⟨path, .cout n.data.type⟩, ⟨path, .cout "\n"⟩])) =
      couts (List.replicate w.ctx.level.toNat ⟨path, .cout "  "⟩) ++
        [n.data.name, " : ", n.data.type, "\n"] := by
    have e : (⟨path, .preTraverse "print"⟩ ::
        (List.replicate w.ctx.level.toNat ⟨path, .cout "  "⟩ ++
          [⟨path, .cout n.data.name⟩, ⟨path, .cout " : "⟩,
           ⟨path, .cout n.data.type⟩, ⟨path, .cout "\n"⟩]) : List Event) =
        [⟨path, .preTraverse "print"⟩] ++
          (List.replicate w.ctx.level.toNat ⟨path, .cout "  "⟩ ++
            [⟨path, .cout n.data.name⟩, ⟨path, .cout " : "⟩,
             ⟨path, .cout n.data.type⟩, ⟨path, .cout "\n"⟩]) := rfl
    rw [e, couts_append, couts_append]
    rfl
  rw [hc, couts_replicate]
  rfl

/-- Under "print" the post-order part of a traversal writes nothing. -/
theorem post_print (env : Env) (path : List Nat) (n : Node) (w : World) :
    couts ((beforePost env "print" path n w).2.since (n.traverse env "print" path w).2) = [] := by
  have ht : (n.traverse env "print" path w).2.trace =
      (beforePost env "print" path n w).2.trace ++ [⟨path, .postTraverse "print"⟩] := by
    rw [traverse_world_eq]
    unfold callPostTraverse Renderable.postTraverse Node.postTraverse
    cases (beforePost env "print" path n w).1.data.kind <;> simp [World.emit]
  rw [since_of_trace ht]
  rfl

theorem visitedAt_eq (d : Nat) (n : Node) :
    n.visitedAt d = (d, n) :: (if n.isValid = true then visitedAtOf (d + 1) n.children else []) := by
  cases n with
  | mk nd cs => simp [Node.visitedAt, Node.isValid, Node.data, Node.children]

mutual
/-- What a "print" traversal entered at level `base + d` writes: the lines of the visited
nodes in pre-order, the line of a node of depth `k` being indented `base + k` times. -/
theorem traverse_print (env : Env) (base : Nat) :
    ∀ (path : List Nat) (n : Node) (w : World) (d : Nat),
      w.ctx.level = ((base + d : Nat) : Int) →
      couts (w.since (n.traverse env "print" path w).2) =
        ((n.visitedAt d).map (fun p => nodeWrites (base + p.1) p.2)).flatten
  | path, .mk nd cs, w, d, hl => by
    obtain ⟨hdata, hA⟩ := enter_print env path (.mk nd cs) w
    have hlev : (enter env path "print" (.mk nd cs) w).2.levelUp.ctx.level =
        ((base + (d + 1) : Nat) : Int) := by
      simp only [World.levelUp, (enter_world env path "print" (.mk nd cs) w).1, hl]
      push_cast; ring
    have ih := traverseChildren_print env base path (enter env path "print" (.mk nd cs) w).1
      0 cs (enter env path "print" (.mk nd cs) w).2.levelUp (d + 1) hlev
    have hB : couts ((enter env path "print" (.mk nd cs) w).2.since
        (beforePost env "print" path (.mk nd cs) w).2) =
        if nd.valid = true then
          ((visitedAtOf (d + 1) cs).map (fun p => nodeWrites (base + p.1) p.2)).flatten
        else [] := by
      rw [hdata] at ih
      simp only [Node.data] at ih
      rw [← ih]
      unfold World.since
      rw [beforePost_trace, hdata]
      simp [World.levelUp, Node.children, Node.data]
    rw [traverse_since, couts_append, couts_append, hA, hB, post_print, hl]
    simp only [Node.visitedAt, List.map_cons, List.flatten_cons, List.append_nil, Int.toNat_ofNat]
    by_cases hv : nd.valid = true <;> simp [hv]
/-- The same for the loop over the children, which are at depth `d`. -/
theorem traverseChildren_print (env : Env) (base : Nat) :
    ∀ (path : List Nat) (parent : NodeData) (i : Nat) (cs : List (String × Node)) (w : World)
      (d : Nat), w.ctx.level = ((base + d : Nat) : Int) →
      couts (w.since (traverseChildren env "print" path parent i cs w).2) =
        if parent.valid = true then
          ((visitedAtOf d cs).map (fun p => nodeWrites (base + p.1) p.2)).flatten
        else []
  | path, parent, i, [], w, d, _ => by simp [traverseChildren, since_self, visitedAtOf, couts]
  | path, parent, i, (key, child) :: rest, w, d, hl => by
    by_cases hv : parent.valid = true
    · have a := traverse_print env base (path ++ [i]) child w d hl
      have hl2 : (child.traverse env "print" (path ++ [i]) w).2.ctx.level =
          ((base + d : Nat) : Int) := by
        rw [(traverse_extends env "print" (path ++ [i]) child w).2, hl]
      have b := traverseChildren_print env base path parent (i + 1) rest
        (child.traverse env "print" (path ++ [i]) w).2 d hl2
      simp only [traverseChildren, hv, if_true] at b ⊢
      rw [since_append (traverse_extends env "print" (path ++ [i]) child w).1
        (traverseChildren_extends env "print" path parent (i + 1) rest _).1,
        couts_append, a, b]
      simp [visitedAtOf]
    · have hv2 : parent.valid = false := by simpa using hv
      rw [traverseChildren_invalid env "print" path parent hv2]
      simp [since_self, hv2, couts]
end

theorem text_replicate_indent : ∀ k : Nat,
    text (List.replicate k "  ") = List.replicate (2 * k) ' '
  | 0 => rfl
  | k + 1 => by
    have ih := text_replicate_indent k
    unfold text at ih ⊢
    rw [List.replicate_succ, List.map_cons, List.flatten_cons, ih]
    have : 2 * (k + 1) = (2 * k) + 1 + 1 := by ring
    rw [this, List.replicate_succ, List.replicate_succ]
    rfl

/-- The characters of the line of a node printed at a nesting level. -/
theorem text_nodeWrites (level : Nat) (n : Node) :
    text (nodeWrites level n) =
      List.replicate (2 * level) ' ' ++ n.data.name.data ++ " : ".data ++
        n.data.type.data ++ "\n".data := by
  have h := text_replicate_indent level
  unfold text at h ⊢
  unfold nodeWrites
  rw [List.map_append, List.flatten_append, h]
  simp

/-- C18: a "print" traversal entered with `ctx.level = L >= 0` writes, for the visited
nodes in pre-order (a node before its descendants), exactly one line each: for a node at
depth `d` below the root, `2 * (L + d)` spaces followed by the name, " : ", the type and a
line end.  When the traversal returns `ctx.level` is `L` again. -/
theorem C18_print_lines (env : Env) (path : List Nat) (n : Node) (w : World)
    (hL : 0 ≤ w.ctx.level) :
    couts (w.since (n.traverse env "print" path w).2) =
      ((n.visitedAt 0).map (fun p => nodeWrites (w.ctx.level.toNat + p.1) p.2)).flatten ∧
    text (couts (w.since (n.traverse env "print" path w).2)) =
      ((n.visitedAt 0).map (fun p =>
        List.replicate (2 * (w.ctx.level.toNat + p.1)) ' ' ++ p.2.data.name.data ++
          " : ".data ++ p.2.data.type.data ++ "\n".data)).flatten ∧
    (n.traverse env "print" path w).2.ctx.level = w.ctx.level := by
  have h := traverse_print env w.ctx.level.toNat path n w 0
    (by simp only [Nat.add_zero]; exact (Int.toNat_of_nonneg hL).symm)
  refine ⟨h, ?_, (traverse_extends env "print" path n w).2⟩
  rw [h]
  unfold text
  rw [List.map_flatten, List.flatten_flatten, List.map_map, List.map_map]
  congr 1
  apply List.map_congr_left
  intro p _
  exact text_nodeWrites _ _

/-- C18, witness: the one-child scene printed from level 0. -/
theorem C18_print_lines_witness :
    0 ≤ World.initial.ctx.level ∧
    couts (World.initial.since (staleParent.traverse passingEnv "print" [] World.initial).2) =
      ["parent", " : ", "Node", "\n", "  ", "a", " : ", "Node", "\n"] ∧
    (staleParent.traverse passingEnv "print" [] World.initial).2.ctx.level =
      World.initial.ctx.level :=
  ⟨by decide, by decide,
   (C18_print_lines passingEnv [] staleParent World.initial (by decide)).2.2⟩

/-! ## The two commit hooks come in pairs -/

theorem preCommit_mem_enter_iff (env : Env) (path q : List Nat) (n : Node) (w : World) :
    (⟨q, .preCommit⟩ : Event) ∈ w.since (enter env path "commit" n w).2 ↔
      q = path ∧ n.dirty := by
  obtain ⟨evs, he, hp, hiff⟩ := enter_since env path "commit" n w
  rw [he]
  constructor
  · intro h
    rcases List.mem_cons.1 h with h1 | h2
    · cases h1
    · have hq : q = path := (hp _ h2).1
      subst hq
      exact ⟨rfl, (hiff.1 h2).2⟩
  · rintro ⟨rfl, hd⟩
    exact List.mem_cons_of_mem _ (hiff.2 ⟨rfl, hd⟩)

theorem postCommit_not_mem_enter (env : Env) (path q : List Nat) (n : Node) (w : World) :
    (⟨q, .postCommit⟩ : Event) ∉ w.since (enter env path "commit" n w).2 := by
  obtain ⟨evs, he, hp, -⟩ := enter_since env path "commit" n w
  rw [he]
  intro h
  rcases List.mem_cons.1 h with h | h
  · cases h
  · exact (hp _ h).2.2 rfl

theorem postCommit_mem_post_iff (env : Env) (path q : List Nat) (n : Node) (w : World) :
    (⟨q, .postCommit⟩ : Event) ∈
        (beforePost env "commit" path n w).2.since (n.traverse env "commit" path w).2 ↔
      q = path ∧ n.dirty := by
  obtain ⟨evs, he, hp, hiff⟩ := post_since_eq env "commit" path n w
  rw [he]
  constructor
  · intro h
    rcases List.mem_cons.1 h with h1 | h2
    · cases h1
    · have hq : q = path := (hp _ h2).1
      subst hq
      exact ⟨rfl, (beforePost_dirty_iff env "commit" q n w).1 (hiff.1 h2).2⟩
  · rintro ⟨rfl, hd⟩
    exact List.mem_cons_of_mem _
      (hiff.2 ⟨rfl, (beforePost_dirty_iff env "commit" q n w).2 hd⟩)

theorem preCommit_not_mem_post (env : Env) (path q : List Nat) (n : Node) (w : World) :
    (⟨q, .preCommit⟩ : Event) ∉
        (beforePost env "commit" path n w).2.since (n.traverse env "commit" path w).2 := by
  obtain ⟨evs, he, hp, -⟩ := post_since_eq env "commit" path n w
  rw [he]
  intro h
  rcases List.mem_cons.1 h with h | h
  · cases h
  · exact (hp _ h).2.2 rfl

/-- The events of the children of a node, as a segment of the trace of the loop. -/
theorem children_since_eq (env : Env) (op : String) (path : List Nat) (n : Node) (w : World) :
    (enter env path op n w).2.since (beforePost env op path n w).2 =
      (enter env path op n w).2.levelUp.since
        (traverseChildren env op path (enter env path op n w).1 0 n.children
          (enter env path op n w).2.levelUp).2 := by
  unfold World.since
  rw [beforePost_trace]
  simp [World.levelUp]

mutual
/-- In a "commit" traversal `preCommit` is recorded for a node exactly when `postCommit`
is recorded for it. -/
theorem traverse_commit_paired (env : Env) :
    ∀ (path : List Nat) (n : Node) (w : World) (q : List Nat),
      (⟨q, .preCommit⟩ : Event) ∈ w.since (n.traverse env "commit" path w).2 ↔
      (⟨q, .postCommit⟩ : Event) ∈ w.since (n.traverse env "commit" path w).2
  | path, .mk d cs, w, q => by
    have ih := traverseChildren_commit_paired env path (enter env path "commit" (.mk d cs) w).1
      0 cs (enter env path "commit" (.mk d cs) w).2.levelUp q
    rw [traverse_since]
    simp only [List.mem_append, preCommit_mem_enter_iff, postCommit_not_mem_enter,
      postCommit_mem_post_iff, preCommit_not_mem_post, children_since_eq, Node.children,
      or_false, false_or]
    rw [ih]
    exact or_comm
/-- The same for the loop over the children. -/
theorem traverseChildren_commit_paired (env : Env) :
    ∀ (path : List Nat) (parent : NodeData) (i : Nat) (cs : List (String × Node)) (w : World)
      (q : List Nat),
      (⟨q, .preCommit⟩ : Event) ∈ w.since (traverseChildren env "commit" path parent i cs w).2 ↔
      (⟨q, .postCommit⟩ : Event) ∈ w.since (traverseChildren env "commit" path parent i cs w).2
  | path, parent, i, [], w, q => by simp [traverseChildren, since_self]
  | path, parent, i, (key, child) :: rest, w, q => by
    by_cases hv : parent.valid = true
    · simp only [traverseChildren, hv, if_true]
      rw [since_append (traverse_extends env "commit" (path ++ [i]) child w).1
        (traverseChildren_extends env "commit" path parent (i + 1) rest _).1]
      simp only [List.mem_append]
      rw [traverse_commit_paired env (path ++ [i]) child w q,
        traverseChildren_commit_paired env path parent (i + 1) rest _ q]
    · have hv2 : parent.valid = false := by simpa using hv
      rw [traverseChildren_invalid env "commit" path parent hv2]
      simp [since_self]
end

/-- C19: in a "commit" traversal of a tree, `preCommit` is invoked on a node exactly when
`postCommit` is invoked on that node.  The dirty test gives the same answer before and
after the walk over the children, because the walk changes none of the node's
`lastModified`, `lastCommitted` and children timestamp.  The trace of the traversal is
the events of the pre-order hook (with `preCommit`), then events of strict descendants
only, then the events of the post-order hook (with `postCommit`). -/
theorem C19_commit_hooks_paired (env : Env) (path : List Nat) (n : Node) (w : World) :
    (∀ q, (⟨q, .preCommit⟩ : Event) ∈ w.since (n.traverse env "commit" path w).2 ↔
          (⟨q, .postCommit⟩ : Event) ∈ w.since (n.traverse env "commit" path w).2) ∧
    ((beforePost env "commit" path n w).1.dirty ↔ n.dirty) ∧
    (beforePost env "commit" path n w).1.getLastModified = n.getLastModified ∧
    (beforePost env "commit" path n w).1.getLastCommitted = n.getLastCommitted ∧
    (beforePost env "commit" path n w).1.getChildrenLastModified =
      n.getChildrenLastModified ∧
    w.since (n.traverse env "commit" path w).2 =
      w.since (enter env path "commit" n w).2 ++
      (enter env path "commit" n w).2.since (beforePost env "commit" path n w).2 ++
      (beforePost env "commit" path n w).2.since (n.traverse env "commit" path w).2 ∧
    (∀ e ∈ w.since (enter env path "commit" n w).2, e.path = path) ∧
    ((⟨path, .preCommit⟩ : Event) ∈ w.since (enter env path "commit" n w).2 ↔ n.dirty) ∧
    (∀ e ∈ (enter env path "commit" n w).2.since (beforePost env "commit" path n w).2,
      path <+: e.path ∧ e.path ≠ path) ∧
    (∀ e ∈ (beforePost env "commit" path n w).2.since (n.traverse env "commit" path w).2,
      e.path = path) ∧
    ((⟨path, .postCommit⟩ : Event) ∈
        (beforePost env "commit" path n w).2.since (n.traverse env "commit" path w).2 ↔
      n.dirty) := by
  refine ⟨traverse_commit_paired env path n w, beforePost_dirty_iff env "commit" path n w,
    ?_, ?_, beforePost_getChildrenLastModified env "commit" path n w,
    traverse_since env "commit" path n w, ?_, preCommit_mem_iff env path n w, ?_, ?_, ?_⟩
  · simp [Node.getLastModified, beforePost_data, enter_data]
  · simp [Node.getLastCommitted, beforePost_data, enter_data]
  · obtain ⟨evs, he, hp, -⟩ := enter_since env path "commit" n w
    rw [he]
    intro e h
    rcases List.mem_cons.1 h with rfl | h
    · rfl
    · exact (hp e h).1
  · intro e h
    exact ⟨(beforePost_extends env "commit" path n w).since_below e h,
      children_events_path_ne env "commit" path n w e h⟩
  · obtain ⟨evs, he, hp, -⟩ := post_since_eq env "commit" path n w
    rw [he]
    intro e h
    rcases List.mem_cons.1 h with rfl | h
    · rfl
    · exact (hp e h).1
  · rw [postCommit_mem_iff]; exact beforePost_dirty_iff env "commit" path n w

/-! ## Verify is idempotent -/

theorem eraseValid_eq (n : Node) :
    n.eraseValid = .mk n.data.withoutValid (eraseValidAll n.children) := by
  cases n; simp [Node.eraseValid, Node.data, Node.children]

/-- The fields of the node a "verify" traversal returns. -/
theorem traverse_verify_data (env : Env) (path : List Nat) (n : Node) (w : World) :
    (n.traverse env "verify" path w).1.data =
      { n.data with
        valid := (verifyChildren env (env.computeValid n)
                   (n.traverse env "verify" path w).1.children) } := by
  rw [traverse_children, traverse_data, callPostTraverse_data]
  simp [Node.isValid, beforePost_data, enter_data]

mutual
/-- A "verify" traversal writes nothing but `valid` flags. -/
theorem traverse_verify_eraseValid (env : Env) :
    ∀ (path : List Nat) (n : Node) (w : World),
      (n.traverse env "verify" path w).1.eraseValid = n.eraseValid
  | path, .mk d cs, w => by
    rw [eraseValid_eq, traverse_verify_data, traverse_children, beforePost_children]
    simp only [Node.children]
    rw [traverseChildren_verify_eraseValid env path _ 0 cs]
    simp [Node.eraseValid, NodeData.withoutValid, Node.data]
/-- The same for the loop over the children. -/
theorem traverseChildren_verify_eraseValid (env : Env) :
    ∀ (path : List Nat) (parent : NodeData) (i : Nat) (cs : List (String × Node)) (w : World),
      eraseValidAll (traverseChildren env "verify" path parent i cs w).1 = eraseValidAll cs
  | path, parent, i, [], w => by simp [traverseChildren]
  | path, parent, i, (key, child) :: rest, w => by
    simp only [traverseChildren, eraseValidAll]
    rw [traverseChildren_verify_eraseValid env path parent (i + 1) rest]
    split
    · rw [traverse_verify_eraseValid env (path ++ [i]) child w]
    · rfl
end

mutual
/-- A second "verify" traversal returns the tree the first one returned, when the
self-check only depends on state a "verify" pass does not write. -/
theorem traverse_verify_idem (env : Env)
    (hcv : ∀ a b : Node, a.eraseValid = b.eraseValid → env.computeValid a = env.computeValid b) :
    ∀ (path : List Nat) (n : Node) (w : World) (path2 : List Nat) (w2 : World),
      ((n.traverse env "verify" path w).1.traverse env "verify" path2 w2).1 =
        (n.traverse env "verify" path w).1
  | path, .mk d cs, w, path2, w2 => by
    have hsame : env.computeValid (Node.traverse env "verify" path (.mk d cs) w).1 =
        env.computeValid (.mk d cs) :=
      hcv _ _ (traverse_verify_eraseValid env path (.mk d cs) w)
    have hch : ((Node.traverse env "verify" path (.mk d cs) w).1.traverse
        env "verify" path2 w2).1.children =
        (Node.traverse env "verify" path (.mk d cs) w).1.children := by
      rw [traverse_children env "verify" path2, beforePost_children,
        traverse_children env "verify" path, beforePost_children]
      simp only [Node.children]
      apply traverseChildren_verify_idem env hcv path _ 0 cs
      rw [enter_data, enter_data]
      simp [hsame]
    rw [← Node.eta ((Node.traverse env "verify" path (.mk d cs) w).1.traverse
        env "verify" path2 w2).1, traverse_verify_data env path2, hch, hsame]
    conv_rhs => rw [← Node.eta (Node.traverse env "verify" path (.mk d cs) w).1]
    congr 1
    rw [traverse_verify_data env path]
/-- The same for the loop over the children; the two parents agree on `valid`. -/
theorem traverseChildren_verify_idem (env : Env)
    (hcv : ∀ a b : Node, a.eraseValid = b.eraseValid → env.computeValid a = env.computeValid b) :
    ∀ (path : List Nat) (parent : NodeData) (i : Nat) (cs : List (String × Node)) (w : World)
      (path2 : List Nat) (parent2 : NodeData) (i2 : Nat) (w2 : World),
      parent2.valid = parent.valid →
      (traverseChildren env "verify" path2 parent2 i2
          (traverseChildren env "verify" path parent i cs w).1 w2).1 =
        (traverseChildren env "verify" path parent i cs w).1
  | path, parent, i, [], w, path2, parent2, i2, w2, _ => by simp [traverseChildren]
  | path, parent, i, (key, child) :: rest, w, path2, parent2, i2, w2, hp => by
    by_cases hv : parent.valid = true
    · have hv2 : parent2.valid = true := by rw [hp]; exact hv
      simp only [traverseChildren, hv, hv2, if_true]
      rw [traverse_verify_idem env hcv (path ++ [i]) child w (path2 ++ [i2]) w2,
        traverseChildren_verify_idem env hcv path parent (i + 1) rest _ path2 parent2 (i2 + 1) _
          hp]
    · have hv' : parent.valid = false := by simpa using hv
      have hv2 : parent2.valid = false := by rw [hp]; exact hv'
      rw [traverseChildren_invalid env "verify" path parent hv',
        traverseChildren_invalid env "verify" path2 parent2 hv2]
end

mutual
theorem subnodes_eraseValid :
    ∀ n : Node, n.eraseValid.subnodes.map Node.data =
      n.subnodes.map (fun m => m.data.withoutValid)
  | .mk d cs => by
    simp only [Node.eraseValid, Node.subnodes, List.map_cons]
    rw [subnodesOf_eraseValidAll cs]
    rfl
theorem subnodesOf_eraseValidAll :
    ∀ cs : List (String × Node), (subnodesOf (eraseValidAll cs)).map Node.data =
      (subnodesOf cs).map (fun m => m.data.withoutValid)
  | [] => rfl
  | (key, c) :: rest => by
    simp only [eraseValidAll, subnodesOf, List.map_append]
    rw [subnodes_eraseValid c, subnodesOf_eraseValidAll rest]
end

/-- C20: when the result of `computeValid()` only depends on state a "verify" pass does
not write, a second "verify" traversal returns exactly the tree the first one returned,
so every `valid` flag is as one run leaves it.  A "verify" pass writes nothing but `valid`
flags: node by node in pre-order, name, type, flags, value, `lastModified` and
`lastCommitted` are as before, and it reads no clock. -/
theorem C20_verify_idempotent (env : Env) (path : List Nat) (n : Node) (w : World)
    (path2 : List Nat) (w2 : World)
    (hcv : ∀ a b : Node, a.eraseValid = b.eraseValid → env.computeValid a = env.computeValid b) :
    ((n.traverse env "verify" path w).1.traverse env "verify" path2 w2).1 =
      (n.traverse env "verify" path w).1 ∧
    (n.traverse env "verify" path w).1.eraseValid = n.eraseValid ∧
    (n.traverse env "verify" path w).1.subnodes.map (fun m => m.data.withoutValid) =
      n.subnodes.map (fun m => m.data.withoutValid) := by
  refine ⟨traverse_verify_idem env hcv path n w path2 w2,
    traverse_verify_eraseValid env path n w, ?_⟩
  rw [← subnodes_eraseValid, ← subnodes_eraseValid, traverse_verify_eraseValid]

theorem rangeEnv_stable :
    ∀ a b : Node, a.eraseValid = b.eraseValid →
      rangeEnv.computeValid a = rangeEnv.computeValid b := by
  intro a b h
  rw [eraseValid_eq a, eraseValid_eq b] at h
  have hv : a.data.withoutValid.value = b.data.withoutValid.value := by
    injection h with h1 _
    rw [h1]
  simp only [NodeData.withoutValid] at hv
  simp [rangeEnv, hv]

/-- C20, witness: the scene with a rejected optional child, verified twice; the
self-check only reads the value. -/
theorem C20_verify_idempotent_witness :
    (∀ a b : Node, a.eraseValid = b.eraseValid →
      rangeEnv.computeValid a = rangeEnv.computeValid b) ∧
    ((sceneOptionalInvalid.traverse rangeEnv "verify" [] World.initial).1.traverse
        rangeEnv "verify" [] World.initial).1 =
      (sceneOptionalInvalid.traverse rangeEnv "verify" [] World.initial).1 :=
  ⟨rangeEnv_stable,
   (C20_verify_idempotent rangeEnv [] sceneOptionalInvalid World.initial [] World.initial
      rangeEnv_stable).1⟩
end ospray.sg
